import Mathlib

/-!
Verification of the `apidiff` semantic diff engine (`src/diff.rs`, `src/change.rs`).

The Rust code is shallowly embedded: Rust structs/enums become Lean
structures/inductives, `IndexMap`/`HashMap` become association lists
(`List (κ × α)`); the key-uniqueness invariant that the Rust map types
enforce by construction is captured by the executable `nodupKeys`
predicate where a proof needs it.  `Option`-returning helpers stay
`Option`-returning.  Fields of the `openapiv3` document types that the
diff engine never reads (descriptions, examples, extensions, the
`default` response slot, path-item level parameters, ...) are elided.
The unordered iteration of Rust's `HashMap`/`HashSet` is modelled by a
deterministic stand-in order (insertion order).
-/

namespace ApiDiff

/-! ## Association-list maps (model of `IndexMap` / `HashMap` lookups) -/

/-- Model of map lookup (`IndexMap::get` / `HashMap::get`): first entry
with the given key. -/
def mapGet {κ α : Type} [DecidableEq κ] (m : List (κ × α)) (k : κ) : Option α :=
  match m with
  | [] => none
  | e :: es => if e.1 = k then some e.2 else mapGet es k

/-- Model of `contains_key`. -/
def containsKey {κ α : Type} [DecidableEq κ] (m : List (κ × α)) (k : κ) : Bool :=
  (mapGet m k).isSome

/-- Key uniqueness, the invariant Rust's map types enforce by construction. -/
def nodupKeys {κ α : Type} [DecidableEq κ] : List (κ × α) → Bool
  | [] => true
  | e :: es => !(containsKey es e.1) && nodupKeys es

/-! ## `change.rs`: Severity, Location, Change -/

inductive Severity where
  | Breaking
  | NonBreaking
deriving DecidableEq

inductive Location where
  | Path (path : String)
  | Operation (path : String) (method : String)
deriving DecidableEq

structure Change where
  severity : Severity
  location : Location
  message : String
deriving DecidableEq

/-! ## `openapiv3` document model (the parts the engine reads) -/

inductive ReferenceOr (α : Type) where
  | Item (item : α)
  | Reference (reference : String)

def ReferenceOr.as_item {α : Type} : ReferenceOr α → Option α
  | .Item x => some x
  | .Reference _ => none

/-- Model of the Rust standard library's prefix-stripping method on
`str` (used by every resolver), working on the character list. -/
def stripPrefixChars : List Char → List Char → Option (List Char)
  | [], s => some s
  | _ :: _, [] => none
  | p :: ps, c :: cs => if p = c then stripPrefixChars ps cs else none

/-- Rust's prefix-stripping on `String`: `some` of the remainder when
`pre` is a prefix of `s`, `none` otherwise. -/
def stripPrefixStr (s pre : String) : Option String :=
  (stripPrefixChars pre.data s.data).map String.mk

/-- `StringType`: only the `enumeration` field is read by the engine
(`Vec<Option<String>>`). -/
structure StringType where
  enumeration : List (Option String)

mutual

inductive Schema where
  | mk (schema_kind : SchemaKind)

/-- `SchemaKind`; the composition variants' payloads are never read. -/
inductive SchemaKind where
  | Ty (t : SchemaType)
  | OneOf
  | AllOf
  | AnyOf
  | Not
  | Any

/-- Source enum `Type` (renamed: `Type` is a Lean keyword). -/
inductive SchemaType where
  | String (s : StringType)
  | Number
  | Integer
  | Object (o : ObjectType)
  | Array (a : ArrayType)
  | Boolean

inductive ObjectType where
  | mk (properties : List (String × ReferenceOr Schema)) (required : List String)

inductive ArrayType where
  | mk (items : Option (ReferenceOr Schema))

end

def Schema.schema_kind : Schema → SchemaKind
  | .mk k => k

def ObjectType.properties : ObjectType → List (String × ReferenceOr Schema)
  | .mk ps _ => ps

def ObjectType.required : ObjectType → List String
  | .mk _ r => r

def ArrayType.items : ArrayType → Option (ReferenceOr Schema)
  | .mk it => it

/-- `MediaType`: only the `schema` field is read. -/
structure MediaType where
  schema : Option (ReferenceOr Schema)

inductive ParameterSchemaOrContent where
  | Schema (r : ReferenceOr Schema)
  | Content (content : List (String × MediaType))

/-- `ParameterData`: the fields `parameter_data_ref` exposes that the
engine reads. -/
structure ParameterData where
  name : String
  required : Bool
  format : ParameterSchemaOrContent

inductive Parameter where
  | Query (data : ParameterData)
  | Header (data : ParameterData)
  | Path (data : ParameterData)
  | Cookie (data : ParameterData)

def Parameter.parameter_data_ref : Parameter → ParameterData
  | .Query d => d
  | .Header d => d
  | .Path d => d
  | .Cookie d => d

structure RequestBody where
  content : List (String × MediaType)
  required : Bool

structure Response where
  content : List (String × MediaType)

inductive StatusCode where
  | Code (c : Nat)
  | Range (r : Nat)
deriving DecidableEq

structure Responses where
  responses : List (StatusCode × ReferenceOr Response)

structure Operation where
  parameters : List (ReferenceOr Parameter)
  request_body : Option (ReferenceOr RequestBody)
  responses : Responses
  deprecated : Bool

structure PathItem where
  get : Option Operation
  put : Option Operation
  post : Option Operation
  delete : Option Operation
  options : Option Operation
  head : Option Operation
  patch : Option Operation
  trace : Option Operation

structure Components where
  schemas : List (String × ReferenceOr Schema)
  responses : List (String × ReferenceOr Response)
  parameters : List (String × ReferenceOr Parameter)
  request_bodies : List (String × ReferenceOr RequestBody)

/-- `OpenAPI`: the `Paths` wrapper around the path map is flattened. -/
structure OpenAPI where
  paths : List (String × ReferenceOr PathItem)
  components : Option Components

/-! ## `diff.rs`: the Diff aggregate -/

structure Diff where
  changes : List Change

def Diff.new (changes : List Change) : Diff := ⟨changes⟩

def Diff.is_empty (d : Diff) : Bool := d.changes.isEmpty

def Diff.has_breaking (d : Diff) : Bool :=
  d.changes.any (fun c => c.severity = Severity.Breaking)

def Diff.breaking (d : Diff) : List Change :=
  d.changes.filter (fun c => c.severity = Severity.Breaking)

def Diff.non_breaking (d : Diff) : List Change :=
  d.changes.filter (fun c => c.severity = Severity.NonBreaking)

/-- `Index<usize> for Diff` indexes into the underlying vector; the
out-of-bounds panic is modelled as `none`. -/
def Diff.index (d : Diff) (i : Nat) : Option Change :=
  d.changes[i]?

/-! ## Direction -/

inductive Direction where
  | Request
  | Response
deriving DecidableEq

/-! ## Reference resolution -/

def resolve_param (r : ReferenceOr Parameter) (components : Option Components) :
    Option Parameter :=
  match r with
  | .Item p => some p
  | .Reference reference =>
      (stripPrefixStr reference ("#/components/parameters/")).bind fun name =>
        (components.bind fun c => mapGet c.parameters name).bind ReferenceOr.as_item

def resolve_request_body (r : ReferenceOr RequestBody) (spec : OpenAPI) :
    Option RequestBody :=
  match r with
  | .Item rb => some rb
  | .Reference reference =>
      (stripPrefixStr reference ("#/components/requestBodies/")).bind fun name =>
        (spec.components.bind fun c => mapGet c.request_bodies name).bind ReferenceOr.as_item

def resolve_response (r : ReferenceOr Response) (spec : OpenAPI) : Option Response :=
  match r with
  | .Item resp => some resp
  | .Reference reference =>
      (stripPrefixStr reference ("#/components/responses/")).bind fun name =>
        (spec.components.bind fun c => mapGet c.responses name).bind ReferenceOr.as_item

def resolve_schema (r : ReferenceOr Schema) (components : Option Components) :
    Option Schema :=
  match r with
  | .Item s => some s
  | .Reference reference =>
      (stripPrefixStr reference ("#/components/schemas/")).bind fun name =>
        (components.bind fun c => mapGet c.schemas name).bind ReferenceOr.as_item

/-- `resolve_box_schema`: identical to `resolve_schema` (the `Box` is
erased in the embedding). -/
def resolve_box_schema (r : ReferenceOr Schema) (components : Option Components) :
    Option Schema :=
  match r with
  | .Item s => some s
  | .Reference reference =>
      (stripPrefixStr reference ("#/components/schemas/")).bind fun name =>
        (components.bind fun c => mapGet c.schemas name).bind ReferenceOr.as_item

/-! ## Schema layer -/

def MAX_DEPTH : Nat := 10

def type_name : SchemaKind → String
  | .Ty t =>
    match t with
    | .String _ => "string"
    | .Number => "number"
    | .Integer => "integer"
    | .Object _ => "object"
    | .Array _ => "array"
    | .Boolean => "boolean"
  | .OneOf => "oneOf"
  | .AllOf => "allOf"
  | .AnyOf => "anyOf"
  | .Not => "not"
  | .Any => "any"

/-- The apostrophe used inside change messages. -/
def q : String := String.mk [Char.ofNat 39]

def diff_string_enum (loc : Location) (context : String)
    (old new : StringType) (direction : Direction) : List Change :=
  if old.enumeration.isEmpty && new.enumeration.isEmpty then []
  else
    let old_values := (old.enumeration.filterMap id).dedup
    let new_values := (new.enumeration.filterMap id).dedup
    let removed := old_values.filterMap fun v =>
      if v ∈ new_values then none
      else some ⟨Severity.Breaking, loc,
        context ++ ": enum value " ++ q ++ v ++ q ++ " removed"⟩
    let added := new_values.filterMap fun v =>
      if v ∈ old_values then none
      else
        let sev := match direction with
          | .Response => Severity.Breaking
          | .Request => Severity.NonBreaking
        some ⟨sev, loc, context ++ ": enum value " ++ q ++ v ++ q ++ " added"⟩
    removed ++ added

/-- The `removed` iterator of `diff_object`. -/
def objectRemoved (loc : Location) (context : String) (old new : ObjectType)
    (direction : Direction) : List Change :=
  old.properties.filterMap fun pr =>
    if containsKey new.properties pr.1 then none
    else
      let sev := match direction with
        | .Response => Severity.Breaking
        | .Request => Severity.NonBreaking
      some ⟨sev, loc, context ++ ": property " ++ q ++ pr.1 ++ q ++ " removed"⟩

/-- The `added` iterator of `diff_object`. -/
def objectAdded (loc : Location) (context : String) (old new : ObjectType)
    (direction : Direction) : List Change :=
  new.properties.filterMap fun pr =>
    if containsKey old.properties pr.1 then none
    else
      let is_required := new.required.contains pr.1
      let sev := match direction, is_required with
        | .Request, true => Severity.Breaking
        | _, _ => Severity.NonBreaking
      some ⟨sev, loc, context ++ ": property " ++ q ++ pr.1 ++ q ++ " added"⟩

/-- The `became_required` iterator of `diff_object`.  Note the source
checks membership in `old.properties` only. -/
def objectBecameRequired (loc : Location) (context : String) (old new : ObjectType)
    (direction : Direction) : List Change :=
  new.required.filterMap fun prop_name =>
    if !(old.required.contains prop_name) && containsKey old.properties prop_name then
      let sev := match direction with
        | .Request => Severity.Breaking
        | .Response => Severity.NonBreaking
      some ⟨sev, loc, context ++ ": property " ++ q ++ prop_name ++ q ++ " became required"⟩
    else none

/-- The `became_optional` iterator of `diff_object`.  Note the source
checks membership in `new.properties` only. -/
def objectBecameOptional (loc : Location) (context : String) (old new : ObjectType)
    (direction : Direction) : List Change :=
  old.required.filterMap fun prop_name =>
    if !(new.required.contains prop_name) && containsKey new.properties prop_name then
      let sev := match direction with
        | .Request => Severity.NonBreaking
        | .Response => Severity.Breaking
      some ⟨sev, loc, context ++ ": property " ++ q ++ prop_name ++ q ++ " became optional"⟩
    else none

mutual

def diff_schema (loc : Location) (context : String) (old new : Schema)
    (direction : Direction) (old_components new_components : Option Components)
    (depth : Nat) : List Change :=
  if _h : depth ≥ MAX_DEPTH then []
  else
    let old_type := type_name old.schema_kind
    let new_type := type_name new.schema_kind
    if old_type ≠ new_type then
      [⟨Severity.Breaking, loc,
        context ++ ": type changed from " ++ old_type ++ " to " ++ new_type⟩]
    else
      match old.schema_kind, new.schema_kind with
      | .Ty (.Object old_obj), .Ty (.Object new_obj) =>
          diff_object loc context old_obj new_obj direction
            old_components new_components depth
      | .Ty (.Array old_arr), .Ty (.Array new_arr) =>
          let old_items := old_arr.items.bind fun r => resolve_box_schema r old_components
          let new_items := new_arr.items.bind fun r => resolve_box_schema r new_components
          match old_items, new_items with
          | some old_s, some new_s =>
              diff_schema loc (context ++ "[]") old_s new_s direction
                old_components new_components (depth + 1)
          | _, _ => []
      | .Ty (.String old_s), .Ty (.String new_s) =>
          diff_string_enum loc context old_s new_s direction
      | _, _ => []
termination_by 2 * (MAX_DEPTH - depth) + 1
decreasing_by
  · simp only [MAX_DEPTH] at *; omega
  · simp only [MAX_DEPTH] at *; omega

def diff_object (loc : Location) (context : String) (old new : ObjectType)
    (direction : Direction) (old_components new_components : Option Components)
    (depth : Nat) : List Change :=
  objectRemoved loc context old new direction
    ++ objectAdded loc context old new direction
    ++ objectBecameRequired loc context old new direction
    ++ objectBecameOptional loc context old new direction
    ++ old.properties.flatMap fun pr =>
      match mapGet new.properties pr.1 with
      | none => []
      | some new_ref =>
        match resolve_box_schema pr.2 old_components,
              resolve_box_schema new_ref new_components with
        | some old_s, some new_s =>
            diff_schema loc (context ++ "." ++ pr.1) old_s new_s direction
              old_components new_components (depth + 1)
        | _, _ => []
termination_by 2 * (MAX_DEPTH - depth - 1) + 2
decreasing_by
  simp only [MAX_DEPTH] at *; omega

end

/-! ## Content layer -/

def diff_content (loc : Location) (label : String)
    (old_content new_content : List (String × MediaType)) (direction : Direction)
    (old_spec new_spec : OpenAPI) : List Change :=
  let existing := old_content.flatMap fun me =>
    match mapGet new_content me.1 with
    | none =>
        [⟨Severity.Breaking, loc,
          label ++ ": media type " ++ q ++ me.1 ++ q ++ " removed"⟩]
    | some new_mt =>
        let old_schema := me.2.schema.bind fun r => resolve_schema r old_spec.components
        let new_schema := new_mt.schema.bind fun r => resolve_schema r new_spec.components
        match old_schema, new_schema with
        | some old_s, some new_s =>
            diff_schema loc (label ++ " " ++ me.1) old_s new_s direction
              old_spec.components new_spec.components 0
        | _, _ => []
  let added := new_content.filterMap fun me =>
    if containsKey old_content me.1 then none
    else some ⟨Severity.NonBreaking, loc,
      label ++ ": media type " ++ q ++ me.1 ++ q ++ " added"⟩
  existing ++ added

/-! ## Responses layer -/

def status_code_str : StatusCode → String
  | .Code c => toString c
  | .Range r => toString r ++ "XX"

def diff_responses (loc : Location) (old new : Responses)
    (old_spec new_spec : OpenAPI) : List Change :=
  let existing := old.responses.flatMap fun ce =>
    match mapGet new.responses ce.1 with
    | none =>
        [⟨Severity.Breaking, loc,
          "response " ++ q ++ status_code_str ce.1 ++ q ++ " removed"⟩]
    | some new_ref =>
        match resolve_response ce.2 old_spec, resolve_response new_ref new_spec with
        | some old_resp, some new_resp =>
            let label := "response " ++ q ++ status_code_str ce.1 ++ q
            diff_content loc label old_resp.content new_resp.content
              Direction.Response old_spec new_spec
        | _, _ => []
  let added := new.responses.filterMap fun ce =>
    if containsKey old.responses ce.1 then none
    else some ⟨Severity.NonBreaking, loc,
      "response " ++ q ++ status_code_str ce.1 ++ q ++ " added"⟩
  existing ++ added

/-! ## Request body layer -/

def diff_request_body (loc : Location)
    (old new : Option (ReferenceOr RequestBody))
    (old_spec new_spec : OpenAPI) : List Change :=
  let old_rb := old.bind fun r => resolve_request_body r old_spec
  let new_rb := new.bind fun r => resolve_request_body r new_spec
  match old_rb, new_rb with
  | none, some rb =>
      let sev := if rb.required then Severity.Breaking else Severity.NonBreaking
      [⟨sev, loc, "request body added"⟩]
  | some _, none =>
      [⟨Severity.Breaking, loc, "request body removed"⟩]
  | some orb, some nrb =>
      let required :=
        if !orb.required && nrb.required then
          [(⟨Severity.Breaking, loc, "request body became required"⟩ : Change)]
        else []
      required ++ diff_content loc ("request body") orb.content nrb.content
        Direction.Request old_spec new_spec
  | none, none => []

/-! ## Parameters layer -/

structure ParamKey where
  name : String
  location : String
deriving DecidableEq

def param_key (p : Parameter) : ParamKey :=
  let data := p.parameter_data_ref
  let location := match p with
    | .Query _ => "query"
    | .Header _ => "header"
    | .Path _ => "path"
    | .Cookie _ => "cookie"
  ⟨data.name, location⟩

/-- `HashMap` insertion: a later entry with an equal key overwrites. -/
def insertKey {κ α : Type} [DecidableEq κ] (m : List (κ × α)) (k : κ) (v : α) :
    List (κ × α) :=
  if containsKey m k then m.map (fun e => if e.1 = k then (k, v) else e)
  else m ++ [(k, v)]

/-- The `collect::<HashMap<_, _>>()` of resolved parameters keyed by
`ParamKey`.  Iteration order of the resulting map is modelled as
insertion order (the Rust `HashMap` order is unspecified). -/
def buildParamMap (params : List (ReferenceOr Parameter))
    (components : Option Components) : List (ParamKey × Parameter) :=
  (params.filterMap fun r => resolve_param r components).foldl
    (fun m p => insertKey m (param_key p) p) []

def diff_parameter_type (loc : Location) (name : String)
    (old_format new_format : ParameterSchemaOrContent) : List Change :=
  let old_schema := match old_format with
    | .Schema r => r.as_item
    | _ => none
  let new_schema := match new_format with
    | .Schema r => r.as_item
    | _ => none
  match old_schema, new_schema with
  | some old_s, some new_s =>
      if type_name old_s.schema_kind ≠ type_name new_s.schema_kind then
        [⟨Severity.Breaking, loc,
          "parameter " ++ q ++ name ++ q ++ " type changed from "
            ++ type_name old_s.schema_kind ++ " to " ++ type_name new_s.schema_kind⟩]
      else []
  | _, _ => []

def diff_parameters (loc : Location)
    (old_params new_params : List (ReferenceOr Parameter))
    (old_components new_components : Option Components) : List Change :=
  let old_map := buildParamMap old_params old_components
  let new_map := buildParamMap new_params new_components
  let existing := old_map.flatMap fun ke =>
    let old_data := ke.2.parameter_data_ref
    match mapGet new_map ke.1 with
    | none =>
        [⟨if old_data.required then Severity.Breaking else Severity.NonBreaking, loc,
          ke.1.location ++ " parameter " ++ q ++ ke.1.name ++ q ++ " removed"⟩]
    | some new_p =>
        let new_data := new_p.parameter_data_ref
        (if !old_data.required && new_data.required then
          [(⟨Severity.Breaking, loc,
            "parameter " ++ q ++ ke.1.name ++ q ++ " became required"⟩ : Change)]
        else [])
        ++ (if old_data.required && !new_data.required then
          [(⟨Severity.NonBreaking, loc,
            "parameter " ++ q ++ ke.1.name ++ q ++ " became optional"⟩ : Change)]
        else [])
        ++ diff_parameter_type loc ke.1.name old_data.format new_data.format
  let added := new_map.filterMap fun ke =>
    if containsKey old_map ke.1 then none
    else
      let sev := if ke.2.parameter_data_ref.required then Severity.Breaking
        else Severity.NonBreaking
      some ⟨sev, loc, ke.1.location ++ " parameter " ++ q ++ ke.1.name ++ q ++ " added"⟩
  existing ++ added

/-! ## Operation layer -/

def diff_operation (loc : Location) (old new : Operation)
    (old_spec new_spec : OpenAPI) : List Change :=
  let params := diff_parameters loc old.parameters new.parameters
    old_spec.components new_spec.components
  let body := diff_request_body loc old.request_body new.request_body old_spec new_spec
  let responses := diff_responses loc old.responses new.responses old_spec new_spec
  let deprecated : Option Change :=
    if !old.deprecated && new.deprecated then
      some ⟨Severity.NonBreaking, loc, "operation deprecated"⟩
    else none
  params ++ body ++ responses ++ deprecated.toList

/-! ## PathItem layer -/

def operations (item : PathItem) : List (String × Option Operation) :=
  [("GET", item.get), ("PUT", item.put), ("POST", item.post),
   ("DELETE", item.delete), ("OPTIONS", item.options), ("HEAD", item.head),
   ("PATCH", item.patch), ("TRACE", item.trace)]

def diff_path_item (path : String) (old new : PathItem)
    (old_spec new_spec : OpenAPI) : List Change :=
  ((operations old).zip (operations new)).flatMap fun pe =>
    let method := pe.1.1
    let location := Location.Operation path method
    match pe.1.2, pe.2.2 with
    | some _, none => [⟨Severity.Breaking, location, "operation removed"⟩]
    | none, some _ => [⟨Severity.NonBreaking, location, "operation added"⟩]
    | some old_op, some new_op =>
        diff_operation location old_op new_op old_spec new_spec
    | none, none => []

/-! ## Paths layer -/

def diff_paths (old new : OpenAPI) : List Change :=
  let removed := old.paths.filterMap fun pe =>
    if containsKey new.paths pe.1 then none
    else some ⟨Severity.Breaking, Location.Path pe.1, "endpoint removed"⟩
  let added := new.paths.filterMap fun pe =>
    if containsKey old.paths pe.1 then none
    else some ⟨Severity.NonBreaking, Location.Path pe.1, "endpoint added"⟩
  let shared := old.paths.flatMap fun pe =>
    match mapGet new.paths pe.1 with
    | none => []
    | some new_ref =>
      match pe.2.as_item, new_ref.as_item with
      | some old_item, some new_item =>
          diff_path_item pe.1 old_item new_item old new
      | _, _ => []
  removed ++ added ++ shared

/-- Compare two OpenAPI specs and return a list of changes. -/
def diff_specs (old new : OpenAPI) : Diff :=
  Diff.new (diff_paths old new)

/-! ## Well-formedness: the invariants Rust's map types give for free

A Rust `IndexMap`/`HashMap` cannot contain two entries with the same
key.  The association-list embedding can, so the executable predicates
below capture exactly that invariant on every map of a document that a
comparison ever reads back via `get` after iterating it.  `wfS` is
fuel-indexed because schema comparison only descends `MAX_DEPTH`
levels. -/

def wfS : Nat → Schema → Bool
  | 0, _ => true
  | n + 1, s =>
    match s.schema_kind with
    | .Ty (.Object o) =>
        nodupKeys o.properties &&
        o.properties.all (fun pr =>
          match pr.2 with
          | .Item s' => wfS n s'
          | .Reference _ => true)
    | .Ty (.Array a) =>
        match a.items with
        | some (.Item s') => wfS n s'
        | _ => true
    | _ => true

def componentsSchemasWf : Option Components → Bool
  | none => true
  | some c =>
      c.schemas.all fun e =>
        match e.2 with
        | .Item s => wfS MAX_DEPTH s
        | .Reference _ => true

def mediaTypeWf (mt : MediaType) : Bool :=
  match mt.schema with
  | some (.Item s) => wfS MAX_DEPTH s
  | _ => true

def contentWf (content : List (String × MediaType)) : Bool :=
  nodupKeys content && content.all fun me => mediaTypeWf me.2

def responseWf (r : Response) : Bool := contentWf r.content

def requestBodyWf (rb : RequestBody) : Bool := contentWf rb.content

def componentsResponsesWf : Option Components → Bool
  | none => true
  | some c =>
      c.responses.all fun e =>
        match e.2 with
        | .Item r => responseWf r
        | .Reference _ => true

def componentsBodiesWf : Option Components → Bool
  | none => true
  | some c =>
      c.request_bodies.all fun e =>
        match e.2 with
        | .Item rb => requestBodyWf rb
        | .Reference _ => true

def operationWf (op : Operation) : Bool :=
  nodupKeys op.responses.responses &&
  op.responses.responses.all (fun ce =>
    match ce.2 with
    | .Item resp => responseWf resp
    | .Reference _ => true) &&
  (match op.request_body with
    | some (.Item rb) => requestBodyWf rb
    | _ => true)

def pathItemWf (item : PathItem) : Bool :=
  (operations item).all fun me =>
    match me.2 with
    | some op => operationWf op
    | none => true

def specWf (d : OpenAPI) : Bool :=
  nodupKeys d.paths &&
  (d.paths.all fun pe =>
    match pe.2 with
    | .Item item => pathItemWf item
    | .Reference _ => true) &&
  (componentsSchemasWf d.components && componentsResponsesWf d.components &&
    componentsBodiesWf d.components)

/-! ## Association-list lemmas -/

theorem mem_of_mapGet {κ α : Type} [DecidableEq κ] {m : List (κ × α)} {k : κ} {v : α}
    (h : mapGet m k = some v) : (k, v) ∈ m := by
  induction m with
  | nil => simp [mapGet] at h
  | cons e es ih =>
    by_cases he : e.1 = k
    · simp only [mapGet, he, if_pos] at h
      cases h
      subst he
      exact List.mem_cons_self _ _
    · simp only [mapGet, he, if_neg, not_false_iff] at h
      exact List.mem_cons_of_mem _ (ih h)

theorem containsKey_of_mem {κ α : Type} [DecidableEq κ] {m : List (κ × α)} {k : κ} {v : α}
    (h : (k, v) ∈ m) : containsKey m k = true := by
  induction m with
  | nil => simp at h
  | cons e es ih =>
    rcases List.mem_cons.mp h with h | h
    · simp [containsKey, mapGet, ← h]
    · by_cases he : e.1 = k
      · simp [containsKey, mapGet, he]
      · simpa [containsKey, mapGet, he] using ih h

theorem mapGet_self {κ α : Type} [DecidableEq κ] {m : List (κ × α)} {k : κ} {v : α}
    (hn : nodupKeys m = true) (h : (k, v) ∈ m) : mapGet m k = some v := by
  induction m with
  | nil => simp at h
  | cons e es ih =>
    simp only [nodupKeys, Bool.and_eq_true, Bool.not_eq_true'] at hn
    rcases List.mem_cons.mp h with h | h
    · simp [mapGet, ← h]
    · by_cases he : e.1 = k
      · exfalso
        have hc := containsKey_of_mem h
        rw [he] at hn
        rw [hn.1] at hc
        exact absurd hc (by simp)
      · simp only [mapGet, he, if_neg, not_false_iff]
        exact ih hn.2 h

theorem containsKey_append {κ α : Type} [DecidableEq κ] (xs ys : List (κ × α)) (k : κ) :
    containsKey (xs ++ ys) k = (containsKey xs k || containsKey ys k) := by
  induction xs with
  | nil => simp [containsKey, mapGet]
  | cons e es ih =>
    by_cases he : e.1 = k <;> simp [containsKey, mapGet, he] at ih ⊢ <;> exact ih

theorem containsKey_map_keyFixed {κ α : Type} [DecidableEq κ] (m : List (κ × α))
    (f : κ × α → κ × α) (hf : ∀ e, (f e).1 = e.1) (k : κ) :
    containsKey (m.map f) k = containsKey m k := by
  induction m with
  | nil => rfl
  | cons e es ih =>
    by_cases he : e.1 = k
    · simp [containsKey, mapGet, hf, he]
    · simp only [List.map_cons, containsKey, mapGet, hf, he, if_neg, not_false_iff] at ih ⊢
      exact ih

theorem nodupKeys_map_keyFixed {κ α : Type} [DecidableEq κ] (m : List (κ × α))
    (f : κ × α → κ × α) (hf : ∀ e, (f e).1 = e.1) (hn : nodupKeys m = true) :
    nodupKeys (m.map f) = true := by
  induction m with
  | nil => rfl
  | cons e es ih =>
    simp only [nodupKeys, Bool.and_eq_true, Bool.not_eq_true'] at hn ⊢
    refine ⟨?_, ih hn.2⟩
    rw [containsKey_map_keyFixed es f hf, hf]
    exact hn.1

theorem nodupKeys_append_single {κ α : Type} [DecidableEq κ] {m : List (κ × α)} {k : κ} {v : α}
    (hn : nodupKeys m = true) (hk : containsKey m k = false) :
    nodupKeys (m ++ [(k, v)]) = true := by
  induction m with
  | nil => simp [nodupKeys, containsKey, mapGet]
  | cons e es ih =>
    simp only [nodupKeys, Bool.and_eq_true, Bool.not_eq_true'] at hn
    simp only [containsKey, mapGet] at hk
    by_cases he : e.1 = k
    · rw [if_pos he] at hk
      simp at hk
    · rw [if_neg he] at hk
      have h1 : containsKey (es ++ [(k, v)]) e.1 = false := by
        rw [containsKey_append]
        simp only [hn.1, Bool.false_or]
        simp [containsKey, mapGet, Ne.symm he]
      have h2 : nodupKeys (es ++ [(k, v)]) = true := ih hn.2 hk
      simp only [List.cons_append, nodupKeys, Bool.and_eq_true, Bool.not_eq_true']
      exact ⟨h1, h2⟩

theorem nodupKeys_insertKey {κ α : Type} [DecidableEq κ] (m : List (κ × α)) (k : κ) (v : α)
    (hn : nodupKeys m = true) : nodupKeys (insertKey m k v) = true := by
  unfold insertKey
  by_cases hc : containsKey m k = true
  · rw [if_pos hc]
    refine nodupKeys_map_keyFixed m _ (fun e => ?_) hn
    by_cases he : e.1 = k <;> simp [he]
  · rw [if_neg hc]
    exact nodupKeys_append_single hn (by simpa using hc)

theorem nodupKeys_buildParamMap (params : List (ReferenceOr Parameter))
    (components : Option Components) : nodupKeys (buildParamMap params components) = true := by
  unfold buildParamMap
  generalize params.filterMap (fun r => resolve_param r components) = ps
  suffices h : ∀ (acc : List (ParamKey × Parameter)), nodupKeys acc = true →
      nodupKeys (ps.foldl (fun m p => insertKey m (param_key p) p) acc) = true by
    exact h [] rfl
  induction ps with
  | nil => intro acc ha; simpa using ha
  | cons p ps ih =>
    intro acc ha
    exact ih _ (nodupKeys_insertKey acc (param_key p) p ha)

/-! ## Reflexivity lemmas: diffing a document against itself -/

theorem wfS_mono : ∀ (n m : Nat) (s : Schema), m ≤ n → wfS n s = true → wfS m s = true := by
  intro n
  induction n with
  | zero =>
    intro m s hm _
    have : m = 0 := Nat.le_zero.mp hm
    subst this
    rfl
  | succ k ih =>
    intro m s hmn hwf
    cases m with
    | zero => rfl
    | succ j =>
      have hj : j ≤ k := by omega
      obtain ⟨kind⟩ := s
      match kind with
      | .Ty (.Object o) =>
        simp only [wfS, Schema.schema_kind, Bool.and_eq_true, List.all_eq_true] at hwf ⊢
        refine ⟨hwf.1, fun pr hpr => ?_⟩
        have h2 := hwf.2 pr hpr
        match hx : pr.2 with
        | .Item s' =>
          rw [hx] at h2
          exact ih j s' hj h2
        | .Reference _ => rfl
      | .Ty (.Array a) =>
        simp only [wfS, Schema.schema_kind] at hwf ⊢
        match hx : a.items with
        | some (.Item s') =>
          rw [hx] at hwf
          exact ih j s' hj hwf
        | some (.Reference _) => rfl
        | none => rfl
      | .Ty (.String _) => rfl
      | .Ty .Number => rfl
      | .Ty .Integer => rfl
      | .Ty .Boolean => rfl
      | .OneOf => rfl
      | .AllOf => rfl
      | .AnyOf => rfl
      | .Not => rfl
      | .Any => rfl

theorem diff_string_enum_self (loc : Location) (ctx : String) (st : StringType)
    (dir : Direction) : diff_string_enum loc ctx st st dir = [] := by
  unfold diff_string_enum
  by_cases h : (st.enumeration.isEmpty && st.enumeration.isEmpty) = true
  · rw [if_pos h]
  · rw [if_neg h]
    rw [List.append_eq_nil]
    constructor
    · exact List.filterMap_eq_nil_iff.mpr fun v hv => by rw [if_pos hv]
    · exact List.filterMap_eq_nil_iff.mpr fun v hv => by rw [if_pos hv]

/-- Auxiliary: `diff_object` on identical objects is empty, given the
key-uniqueness invariant and emptiness of the recursive comparisons. -/
theorem diff_object_self_of (loc : Location) (ctx : String) (o : ObjectType)
    (dir : Direction) (comps : Option Components) (depth : Nat)
    (hnodup : nodupKeys o.properties = true)
    (hrec : ∀ (ctx' : String) (s : Schema),
      (∃ pr ∈ o.properties, resolve_box_schema pr.2 comps = some s) →
      diff_schema loc ctx' s s dir comps comps (depth + 1) = []) :
    diff_object loc ctx o o dir comps comps depth = [] := by
  rw [diff_object]
  have h1 : objectRemoved loc ctx o o dir = [] := by
    refine List.filterMap_eq_nil_iff.mpr fun pr hpr => ?_
    rw [if_pos (containsKey_of_mem hpr)]
  have h2 : objectAdded loc ctx o o dir = [] := by
    refine List.filterMap_eq_nil_iff.mpr fun pr hpr => ?_
    rw [if_pos (containsKey_of_mem hpr)]
  have h3 : objectBecameRequired loc ctx o o dir = [] := by
    refine List.filterMap_eq_nil_iff.mpr fun p hp => ?_
    simp [hp]
  have h4 : objectBecameOptional loc ctx o o dir = [] := by
    refine List.filterMap_eq_nil_iff.mpr fun p hp => ?_
    simp [hp]
  have h5 : (o.properties.flatMap fun pr =>
      match mapGet o.properties pr.1 with
      | none => []
      | some new_ref =>
        match resolve_box_schema pr.2 comps, resolve_box_schema new_ref comps with
        | some old_s, some new_s =>
            diff_schema loc (ctx ++ "." ++ pr.1) old_s new_s dir comps comps (depth + 1)
        | _, _ => []) = [] := by
    refine List.bind_eq_nil.mpr fun pr hpr => ?_
    rw [mapGet_self hnodup hpr]
    show (match resolve_box_schema pr.2 comps, resolve_box_schema pr.2 comps with
      | some old_s, some new_s =>
          diff_schema loc (ctx ++ "." ++ pr.1) old_s new_s dir comps comps (depth + 1)
      | _, _ => []) = []
    cases hres : resolve_box_schema pr.2 comps with
    | none => rfl
    | some s' => exact hrec (ctx ++ "." ++ pr.1) s' ⟨pr, hpr, hres⟩
  rw [h1, h2, h3, h4, h5]
  rfl

/-- A reference resolved against well-formed component schemas yields a
schema satisfying the full-fuel invariant. -/
theorem wfS_resolve_reference (comps : Option Components) (ref : String) (s : Schema)
    (hcomps : componentsSchemasWf comps = true)
    (hres : resolve_box_schema (.Reference ref) comps = some s) :
    wfS MAX_DEPTH s = true := by
  simp only [resolve_box_schema, Option.bind_eq_some] at hres
  obtain ⟨name, -, hres⟩ := hres
  obtain ⟨entry, ⟨c, hc, hget⟩, hit⟩ := hres
  subst hc
  simp only [componentsSchemasWf, List.all_eq_true] at hcomps
  have hwf := hcomps (name, entry) (mem_of_mapGet hget)
  match entry, hit, hwf with
  | .Item s', hit, hwf =>
    simp only [ReferenceOr.as_item, Option.some.injEq] at hit
    exact hit ▸ hwf

theorem diff_schema_self : ∀ (n : Nat) (depth : Nat), MAX_DEPTH - depth = n →
    ∀ (loc : Location) (ctx : String) (s : Schema) (dir : Direction)
      (comps : Option Components), componentsSchemasWf comps = true →
      wfS n s = true →
      diff_schema loc ctx s s dir comps comps depth = [] := by
  intro n
  induction n with
  | zero =>
    intro depth hdep loc ctx s dir comps _ _
    rw [diff_schema, dif_pos (by simp only [MAX_DEPTH] at *; omega)]
  | succ k ih =>
    intro depth hdep loc ctx s dir comps hcomps hwf
    have hdep1 : MAX_DEPTH - (depth + 1) = k := by simp only [MAX_DEPTH] at *; omega
    have hge : ¬ depth ≥ MAX_DEPTH := by simp only [MAX_DEPTH] at *; omega
    obtain ⟨kind⟩ := s
    match kind with
    | .Ty (.Object o) =>
      rw [diff_schema, dif_neg hge]
      show diff_object loc ctx o o dir comps comps depth = []
      simp only [wfS, Schema.schema_kind, Bool.and_eq_true, List.all_eq_true] at hwf
      refine diff_object_self_of loc ctx o dir comps depth hwf.1 ?_
      intro ctx' s' ⟨pr, hpr, hres⟩
      refine ih (depth + 1) hdep1 loc ctx' s' dir comps hcomps ?_
      match hr : pr.2, hres with
      | .Item s'', hres =>
        simp only [resolve_box_schema, Option.some.injEq] at hres
        have h2 := hwf.2 pr hpr
        rw [hr] at h2
        exact hres ▸ h2
      | .Reference ref, hres =>
        exact wfS_mono MAX_DEPTH k s' (by simp only [MAX_DEPTH] at *; omega)
          (wfS_resolve_reference comps ref s' hcomps hres)
    | .Ty (.Array a) =>
      rw [diff_schema, dif_neg hge]
      show (match a.items.bind fun r => resolve_box_schema r comps,
            a.items.bind fun r => resolve_box_schema r comps with
        | some old_s, some new_s =>
            diff_schema loc (ctx ++ "[]") old_s new_s dir comps comps (depth + 1)
        | _, _ => []) = []
      simp only [wfS, Schema.schema_kind] at hwf
      cases hres : a.items.bind fun r => resolve_box_schema r comps with
      | none => rfl
      | some s' =>
        obtain ⟨r, hr, hres'⟩ := Option.bind_eq_some.mp hres
        refine ih (depth + 1) hdep1 loc (ctx ++ "[]") s' dir comps hcomps ?_
        match r, hres' with
        | .Item s'', hres' =>
          simp only [resolve_box_schema, Option.some.injEq] at hres'
          rw [hr] at hwf
          exact hres' ▸ hwf
        | .Reference ref, hres' =>
          exact wfS_mono MAX_DEPTH k s' (by simp only [MAX_DEPTH] at *; omega)
            (wfS_resolve_reference comps ref s' hcomps hres')
    | .Ty (.String st) =>
      rw [diff_schema, dif_neg hge]
      show diff_string_enum loc ctx st st dir = []
      exact diff_string_enum_self loc ctx st dir
    | .Ty .Number => rw [diff_schema, dif_neg hge]; rfl
    | .Ty .Integer => rw [diff_schema, dif_neg hge]; rfl
    | .Ty .Boolean => rw [diff_schema, dif_neg hge]; rfl
    | .OneOf => rw [diff_schema, dif_neg hge]; rfl
    | .AllOf => rw [diff_schema, dif_neg hge]; rfl
    | .AnyOf => rw [diff_schema, dif_neg hge]; rfl
    | .Not => rw [diff_schema, dif_neg hge]; rfl
    | .Any => rw [diff_schema, dif_neg hge]; rfl

theorem resolve_schema_eq_box (r : ReferenceOr Schema) (comps : Option Components) :
    resolve_schema r comps = resolve_box_schema r comps := by
  cases r <;> rfl

theorem contentWf_resolve_response (spec : OpenAPI) (r : ReferenceOr Response)
    (resp : Response) (hcr : componentsResponsesWf spec.components = true)
    (hitem : ∀ x, r = .Item x → responseWf x = true)
    (hres : resolve_response r spec = some resp) : contentWf resp.content = true := by
  match r with
  | .Item x =>
    simp only [resolve_response, Option.some.injEq] at hres
    exact hres ▸ hitem x rfl
  | .Reference ref =>
    simp only [resolve_response, Option.bind_eq_some] at hres
    obtain ⟨name, -, hres⟩ := hres
    obtain ⟨entry, ⟨c, hc, hget⟩, hit⟩ := hres
    rw [hc] at hcr
    simp only [componentsResponsesWf, List.all_eq_true] at hcr
    have hwf := hcr (name, entry) (mem_of_mapGet hget)
    match entry, hit, hwf with
    | .Item x, hit, hwf =>
      simp only [ReferenceOr.as_item, Option.some.injEq] at hit
      exact hit ▸ hwf

theorem contentWf_resolve_request_body (spec : OpenAPI) (r : ReferenceOr RequestBody)
    (rb : RequestBody) (hcb : componentsBodiesWf spec.components = true)
    (hitem : ∀ x, r = .Item x → requestBodyWf x = true)
    (hres : resolve_request_body r spec = some rb) : contentWf rb.content = true := by
  match r with
  | .Item x =>
    simp only [resolve_request_body, Option.some.injEq] at hres
    exact hres ▸ hitem x rfl
  | .Reference ref =>
    simp only [resolve_request_body, Option.bind_eq_some] at hres
    obtain ⟨name, -, hres⟩ := hres
    obtain ⟨entry, ⟨c, hc, hget⟩, hit⟩ := hres
    rw [hc] at hcb
    simp only [componentsBodiesWf, List.all_eq_true] at hcb
    have hwf := hcb (name, entry) (mem_of_mapGet hget)
    match entry, hit, hwf with
    | .Item x, hit, hwf =>
      simp only [ReferenceOr.as_item, Option.some.injEq] at hit
      exact hit ▸ hwf

theorem diff_content_self (loc : Location) (label : String)
    (content : List (String × MediaType)) (spec : OpenAPI) (dir : Direction)
    (hc : contentWf content = true)
    (hcs : componentsSchemasWf spec.components = true) :
    diff_content loc label content content dir spec spec = [] := by
  simp only [contentWf, Bool.and_eq_true, List.all_eq_true] at hc
  simp only [diff_content]
  rw [List.append_eq_nil]
  constructor
  · refine List.bind_eq_nil.mpr fun me hme => ?_
    rw [mapGet_self hc.1 hme]
    show (match me.2.schema.bind fun r => resolve_schema r spec.components,
          me.2.schema.bind fun r => resolve_schema r spec.components with
      | some old_s, some new_s =>
          diff_schema loc (label ++ " " ++ me.1) old_s new_s dir
            spec.components spec.components 0
      | _, _ => []) = []
    cases hres : me.2.schema.bind fun r => resolve_schema r spec.components with
    | none => rfl
    | some s' =>
      refine diff_schema_self MAX_DEPTH 0 rfl loc (label ++ " " ++ me.1) s' dir
        spec.components hcs ?_
      obtain ⟨r, hr, hres'⟩ := Option.bind_eq_some.mp hres
      match r, hres' with
      | .Item s'', hres' =>
        simp only [resolve_schema, Option.some.injEq] at hres'
        have hmw := hc.2 me hme
        unfold mediaTypeWf at hmw
        rw [hr] at hmw
        exact hres' ▸ hmw
      | .Reference ref, hres' =>
        rw [resolve_schema_eq_box] at hres'
        exact wfS_resolve_reference spec.components ref s' hcs hres'
  · refine List.filterMap_eq_nil_iff.mpr fun me hme => ?_
    rw [if_pos (containsKey_of_mem hme)]

theorem diff_responses_self (loc : Location) (rs : Responses) (spec : OpenAPI)
    (hn : nodupKeys rs.responses = true)
    (hitems : ∀ ce ∈ rs.responses, ∀ x, ce.2 = ReferenceOr.Item x → responseWf x = true)
    (hcr : componentsResponsesWf spec.components = true)
    (hcs : componentsSchemasWf spec.components = true) :
    diff_responses loc rs rs spec spec = [] := by
  simp only [diff_responses]
  rw [List.append_eq_nil]
  constructor
  · refine List.bind_eq_nil.mpr fun ce hce => ?_
    rw [mapGet_self hn hce]
    show (match resolve_response ce.2 spec, resolve_response ce.2 spec with
      | some old_resp, some new_resp =>
          diff_content loc ("response " ++ q ++ status_code_str ce.1 ++ q)
            old_resp.content new_resp.content Direction.Response spec spec
      | _, _ => []) = []
    cases hres : resolve_response ce.2 spec with
    | none => rfl
    | some resp =>
      exact diff_content_self loc _ resp.content spec Direction.Response
        (contentWf_resolve_response spec ce.2 resp hcr (fun x hx => hitems ce hce x hx) hres)
        hcs
  · refine List.filterMap_eq_nil_iff.mpr fun ce hce => ?_
    rw [if_pos (containsKey_of_mem hce)]

theorem diff_request_body_self (loc : Location)
    (b : Option (ReferenceOr RequestBody)) (spec : OpenAPI)
    (hitem : ∀ r x, b = some r → r = ReferenceOr.Item x → requestBodyWf x = true)
    (hcb : componentsBodiesWf spec.components = true)
    (hcs : componentsSchemasWf spec.components = true) :
    diff_request_body loc b b spec spec = [] := by
  simp only [diff_request_body]
  cases hrb : b.bind fun r => resolve_request_body r spec with
  | none => rfl
  | some rb =>
    show ((if !rb.required && rb.required then
        [(⟨Severity.Breaking, loc, "request body became required"⟩ : Change)]
      else [])
      ++ diff_content loc ("request body") rb.content rb.content
        Direction.Request spec spec) = []
    rw [Bool.not_and_self, if_neg (by simp)]
    rw [List.nil_append]
    obtain ⟨r, hr, hres⟩ := Option.bind_eq_some.mp hrb
    exact diff_content_self loc _ rb.content spec Direction.Request
      (contentWf_resolve_request_body spec r rb hcb (fun x hx => hitem r x hr hx) hres)
      hcs

theorem diff_parameter_type_self (loc : Location) (name : String)
    (f : ParameterSchemaOrContent) : diff_parameter_type loc name f f = [] := by
  unfold diff_parameter_type
  cases f with
  | Schema r =>
    show (match r.as_item, r.as_item with
      | some old_s, some new_s =>
          if type_name old_s.schema_kind ≠ type_name new_s.schema_kind then
            [(⟨Severity.Breaking, loc,
              "parameter " ++ q ++ name ++ q ++ " type changed from "
                ++ type_name old_s.schema_kind ++ " to "
                ++ type_name new_s.schema_kind⟩ : Change)]
          else []
      | _, _ => []) = []
    cases hr : r.as_item with
    | none => rfl
    | some s =>
      show (if type_name s.schema_kind ≠ type_name s.schema_kind then _ else []) = []
      rw [if_neg (not_not_intro rfl)]
  | Content _ => rfl

theorem diff_parameters_self (loc : Location) (ps : List (ReferenceOr Parameter))
    (comps : Option Components) : diff_parameters loc ps ps comps comps = [] := by
  simp only [diff_parameters]
  rw [List.append_eq_nil]
  constructor
  · refine List.bind_eq_nil.mpr fun ke hke => ?_
    rw [mapGet_self (nodupKeys_buildParamMap ps comps) hke]
    show ((if !ke.2.parameter_data_ref.required && ke.2.parameter_data_ref.required then
        [(⟨Severity.Breaking, loc,
          "parameter " ++ q ++ ke.1.name ++ q ++ " became required"⟩ : Change)]
      else [])
      ++ (if ke.2.parameter_data_ref.required && !ke.2.parameter_data_ref.required then
        [(⟨Severity.NonBreaking, loc,
          "parameter " ++ q ++ ke.1.name ++ q ++ " became optional"⟩ : Change)]
      else [])
      ++ diff_parameter_type loc ke.1.name ke.2.parameter_data_ref.format
          ke.2.parameter_data_ref.format) = []
    rw [Bool.not_and_self, Bool.and_not_self, if_neg (by simp), if_neg (by simp),
      List.nil_append, List.nil_append]
    exact diff_parameter_type_self loc ke.1.name ke.2.parameter_data_ref.format
  · refine List.filterMap_eq_nil_iff.mpr fun ke hke => ?_
    rw [if_pos (containsKey_of_mem hke)]

theorem diff_operation_self (loc : Location) (op : Operation) (spec : OpenAPI)
    (hop : operationWf op = true)
    (hcr : componentsResponsesWf spec.components = true)
    (hcb : componentsBodiesWf spec.components = true)
    (hcs : componentsSchemasWf spec.components = true) :
    diff_operation loc op op spec spec = [] := by
  simp only [operationWf, Bool.and_eq_true, List.all_eq_true] at hop
  obtain ⟨⟨hn, hresp⟩, hbody⟩ := hop
  simp only [diff_operation]
  rw [diff_parameters_self loc op.parameters spec.components]
  rw [diff_responses_self loc op.responses spec hn
    (fun ce hce x hx => by
      have h := hresp ce hce
      rw [hx] at h
      exact h) hcr hcs]
  rw [diff_request_body_self loc op.request_body spec
    (fun r x hr hx => by
      rw [hr, hx] at hbody
      exact hbody) hcb hcs]
  simp [Bool.not_and_self]

theorem zip_self_mem {α : Type} (l : List α) (x : α × α) (hx : x ∈ l.zip l) :
    x.1 = x.2 ∧ x.1 ∈ l := by
  induction l with
  | nil => simp at hx
  | cons a l ih =>
    rw [List.zip_cons_cons] at hx
    rcases List.mem_cons.mp hx with h | h
    · subst h
      exact ⟨rfl, List.mem_cons_self _ _⟩
    · obtain ⟨h1, h2⟩ := ih h
      exact ⟨h1, List.mem_cons_of_mem _ h2⟩

theorem diff_path_item_self (path : String) (item : PathItem) (spec : OpenAPI)
    (hitem : pathItemWf item = true)
    (hcr : componentsResponsesWf spec.components = true)
    (hcb : componentsBodiesWf spec.components = true)
    (hcs : componentsSchemasWf spec.components = true) :
    diff_path_item path item item spec spec = [] := by
  simp only [diff_path_item]
  refine List.bind_eq_nil.mpr fun pe hpe => ?_
  obtain ⟨heq, hmem⟩ := zip_self_mem _ pe hpe
  simp only [pathItemWf, List.all_eq_true] at hitem
  have hwf := hitem pe.1 hmem
  rw [← heq]
  cases hx : pe.1.2 with
  | none => rfl
  | some op =>
    rw [hx] at hwf
    exact diff_operation_self (Location.Operation path pe.1.1) op spec hwf hcr hcb hcs

theorem diff_paths_self (d : OpenAPI) (h : specWf d = true) : diff_paths d d = [] := by
  simp only [specWf, Bool.and_eq_true, List.all_eq_true] at h
  obtain ⟨⟨hn, hitems⟩, ⟨hcs, hcr⟩, hcb⟩ := h
  simp only [diff_paths]
  rw [List.append_eq_nil, List.append_eq_nil]
  refine ⟨⟨List.filterMap_eq_nil_iff.mpr fun pe hpe => ?_,
    List.filterMap_eq_nil_iff.mpr fun pe hpe => ?_⟩,
    List.bind_eq_nil.mpr fun pe hpe => ?_⟩
  · rw [if_pos (containsKey_of_mem hpe)]
  · rw [if_pos (containsKey_of_mem hpe)]
  · rw [mapGet_self hn hpe]
    show (match pe.2.as_item, pe.2.as_item with
      | some old_item, some new_item => diff_path_item pe.1 old_item new_item d d
      | _, _ => []) = []
    have hwf := hitems pe hpe
    match hx : pe.2, hwf with
    | .Item it, hwf =>
      simp only [ReferenceOr.as_item]
      exact diff_path_item_self pe.1 it d hwf hcr hcb hcs
    | .Reference _, hwf => rfl

/-! ## C1: reflexivity -/

/-- C1: for every OpenAPI document `D`, `diff_specs D D` returns an empty
`Diff`: the change list is empty (so no layer produced any `Change`) and
`is_empty` holds.  The hypothesis `specWf D` is the key-uniqueness
invariant of every map in the document, which the Rust `IndexMap` /
`HashMap` types enforce by construction and the association-list
embedding has to state explicitly. -/
theorem diff_specs_refl (D : OpenAPI) (h : specWf D = true) :
    (diff_specs D D).changes = [] ∧ (diff_specs D D).is_empty = true := by
  have hp := diff_paths_self D h
  exact ⟨hp, by simp [diff_specs, Diff.new, Diff.is_empty, hp]⟩

def schemaUserW : Schema :=
  .mk (.Ty (.Object (.mk
    [("id", .Item (.mk (.Ty .Integer))),
     ("name", .Item (.mk (.Ty (.String ⟨[some "active", none]⟩))))]
    ["id"])))

def operationW : Operation :=
  { parameters :=
      [.Item (.Query ⟨"filter", false, .Schema (.Item (.mk (.Ty (.String ⟨[]⟩))))⟩)],
    request_body := none,
    responses := ⟨[(StatusCode.Code 200,
      .Item ⟨[("application/json", ⟨some (.Reference "#/components/schemas/User")⟩)]⟩)]⟩,
    deprecated := false }

def pathItemW : PathItem :=
  { get := some operationW, put := none, post := none, delete := none,
    options := none, head := none, patch := none, trace := none }

def docW : OpenAPI :=
  { paths := [("/users", .Item pathItemW)],
    components := some
      { schemas := [("User", .Item schemaUserW)],
        responses := [], parameters := [], request_bodies := [] } }

/-- Witness for C1 at a concrete document with an operation, a
parameter, a response and a `$ref`-resolved object schema. -/
theorem diff_specs_refl_witness :
    specWf docW = true ∧
      (diff_specs docW docW).changes = [] ∧ (diff_specs docW docW).is_empty = true :=
  ⟨by decide, diff_specs_refl docW (by decide)⟩

/-! ## C9: Diff view invariants -/

/-- C9: `has_breaking` holds exactly when the `breaking` view is
non-empty; every contained change is in exactly one of the `breaking`
and `non_breaking` views; and `is_empty` holds exactly when both views
are empty. -/
theorem diff_views_partition (d : Diff) :
    (d.has_breaking = true ↔ d.breaking ≠ []) ∧
    (∀ c ∈ d.changes, (c ∈ d.breaking ∧ c ∉ d.non_breaking) ∨
      (c ∉ d.breaking ∧ c ∈ d.non_breaking)) ∧
    (d.is_empty = true ↔ (d.breaking = [] ∧ d.non_breaking = [])) := by
  refine ⟨?_, ?_, ?_⟩
  · rw [Diff.has_breaking, Diff.breaking, List.any_eq_true, Ne, List.filter_eq_nil_iff]
    push_neg
    constructor
    · rintro ⟨c, hc, hp⟩
      exact ⟨c, hc, by simpa using hp⟩
    · rintro ⟨c, hc, hp⟩
      exact ⟨c, hc, by simpa using hp⟩
  · intro c hc
    cases hsev : c.severity with
    | Breaking =>
      left
      refine ⟨List.mem_filter.mpr ⟨hc, by simp [hsev]⟩, fun hmem => ?_⟩
      have h2 := (List.mem_filter.mp hmem).2
      simp [Diff.non_breaking, hsev] at h2
    | NonBreaking =>
      right
      refine ⟨fun hmem => ?_, List.mem_filter.mpr ⟨hc, by simp [hsev]⟩⟩
      have h2 := (List.mem_filter.mp hmem).2
      simp [Diff.breaking, hsev] at h2
  · rw [Diff.is_empty, List.isEmpty_iff]
    constructor
    · intro h
      rw [Diff.breaking, Diff.non_breaking, h]
      exact ⟨rfl, rfl⟩
    · rintro ⟨hb, hnb⟩
      match hch : d.changes with
      | [] => rfl
      | c :: tl =>
        cases hsev : c.severity with
        | Breaking =>
          have hm : c ∈ d.breaking := List.mem_filter.mpr
            ⟨by rw [hch]; exact List.mem_cons_self _ _, by simp [hsev]⟩
          rw [hb] at hm
          simp at hm
        | NonBreaking =>
          have hm : c ∈ d.non_breaking := List.mem_filter.mpr
            ⟨by rw [hch]; exact List.mem_cons_self _ _, by simp [hsev]⟩
          rw [hnb] at hm
          simp at hm

def changeW : Change := ⟨Severity.Breaking, Location.Path "/a", "endpoint removed"⟩

/-- Witness for C9's membership part at a one-change Diff. -/
theorem diff_views_partition_witness :
    changeW ∈ (Diff.new [changeW]).changes ∧
      ((changeW ∈ (Diff.new [changeW]).breaking ∧
          changeW ∉ (Diff.new [changeW]).non_breaking) ∨
        (changeW ∉ (Diff.new [changeW]).breaking ∧
          changeW ∈ (Diff.new [changeW]).non_breaking)) :=
  ⟨by decide, (diff_views_partition (Diff.new [changeW])).2.1 changeW (by decide)⟩

/-! ## C10: indexing is partial -/

/-- C10: `Diff` indexing is partial: an index below the number of
changes yields the change at that position in emission order; any other
index yields no value (the Rust `Index<usize>` impl panics there,
modelled as `none`). -/
theorem diff_index_spec (d : Diff) (i : Nat) :
    (∀ h : i < d.changes.length, d.index i = some (d.changes.get ⟨i, h⟩)) ∧
    (d.changes.length ≤ i → d.index i = none) := by
  constructor
  · intro h
    simp [Diff.index, List.getElem?_eq_getElem h]
  · intro h
    simp [Diff.index, List.getElem?_eq_none h]

/-- Witness for C10: in-bounds and out-of-bounds access on a one-change
Diff. -/
theorem diff_index_spec_witness :
    (Diff.new [changeW]).index 0 = some changeW ∧
      (Diff.new [changeW]).index 1 = none :=
  ⟨(diff_index_spec (Diff.new [changeW]) 0).1 (by decide),
   (diff_index_spec (Diff.new [changeW]) 1).2 (by decide)⟩

/-! ## C4: depth guard -/

/-- C4: `MAX_DEPTH` is 10; `diff_schema` at `depth ≥ MAX_DEPTH` returns
the empty change list immediately; the recursive call into array items
is at `depth + 1`, and the recursive call into a shared object property
is at `depth + 1` (shown for a one-property object).  Totality of
`diff_schema` on every input is witnessed by its accepted termination
measure. -/
theorem diff_schema_depth_guard :
    MAX_DEPTH = 10 ∧
    (∀ (loc : Location) (ctx : String) (old new : Schema) (dir : Direction)
      (oc nc : Option Components) (depth : Nat), MAX_DEPTH ≤ depth →
      diff_schema loc ctx old new dir oc nc depth = []) ∧
    (∀ (loc : Location) (ctx : String) (oa na : ArrayType) (dir : Direction)
      (oc nc : Option Components) (depth : Nat) (os ns : Schema),
      depth < MAX_DEPTH →
      (oa.items.bind fun r => resolve_box_schema r oc) = some os →
      (na.items.bind fun r => resolve_box_schema r nc) = some ns →
      diff_schema loc ctx (.mk (.Ty (.Array oa))) (.mk (.Ty (.Array na))) dir oc nc depth
        = diff_schema loc (ctx ++ "[]") os ns dir oc nc (depth + 1)) ∧
    (∀ (loc : Location) (ctx : String) (p : String) (oref nref : ReferenceOr Schema)
      (dir : Direction) (oc nc : Option Components) (depth : Nat) (os ns : Schema),
      depth < MAX_DEPTH →
      resolve_box_schema oref oc = some os →
      resolve_box_schema nref nc = some ns →
      diff_schema loc ctx (.mk (.Ty (.Object (.mk [(p, oref)] []))))
          (.mk (.Ty (.Object (.mk [(p, nref)] [])))) dir oc nc depth
        = diff_schema loc (ctx ++ "." ++ p) os ns dir oc nc (depth + 1)) := by
  refine ⟨rfl, fun loc ctx old new dir oc nc depth h => ?_,
    fun loc ctx oa na dir oc nc depth os ns hlt hos hns => ?_,
    fun loc ctx p oref nref dir oc nc depth os ns hlt hos hns => ?_⟩
  · rw [diff_schema, dif_pos h]
  · rw [diff_schema, dif_neg (Nat.not_le.mpr hlt)]
    show (match oa.items.bind fun r => resolve_box_schema r oc,
          na.items.bind fun r => resolve_box_schema r nc with
      | some old_s, some new_s =>
          diff_schema loc (ctx ++ "[]") old_s new_s dir oc nc (depth + 1)
      | _, _ => []) = diff_schema loc (ctx ++ "[]") os ns dir oc nc (depth + 1)
    rw [hos, hns]
  · rw [diff_schema, dif_neg (Nat.not_le.mpr hlt)]
    show diff_object loc ctx (.mk [(p, oref)] []) (.mk [(p, nref)] []) dir oc nc depth
      = diff_schema loc (ctx ++ "." ++ p) os ns dir oc nc (depth + 1)
    rw [diff_object]
    have h1 : objectRemoved loc ctx (.mk [(p, oref)] []) (.mk [(p, nref)] []) dir = [] := by
      simp [objectRemoved, containsKey, mapGet, ObjectType.properties]
    have h2 : objectAdded loc ctx (.mk [(p, oref)] []) (.mk [(p, nref)] []) dir = [] := by
      simp [objectAdded, containsKey, mapGet, ObjectType.properties]
    have h3 : objectBecameRequired loc ctx (.mk [(p, oref)] []) (.mk [(p, nref)] []) dir
        = [] := by
      simp [objectBecameRequired, ObjectType.required]
    have h4 : objectBecameOptional loc ctx (.mk [(p, oref)] []) (.mk [(p, nref)] []) dir
        = [] := by
      simp [objectBecameOptional, ObjectType.required]
    rw [h1, h2, h3, h4]
    show ([] : List Change) ++ [] ++ [] ++ [] ++
      ([(p, oref)].flatMap fun pr =>
        match mapGet ((ObjectType.mk [(p, nref)] []).properties) pr.1 with
        | none => []
        | some new_ref =>
          match resolve_box_schema pr.2 oc, resolve_box_schema new_ref nc with
          | some old_s, some new_s =>
              diff_schema loc (ctx ++ "." ++ pr.1) old_s new_s dir oc nc (depth + 1)
          | _, _ => []) = _
    simp only [List.nil_append, List.flatMap_cons, List.flatMap_nil, List.append_nil]
    show (match mapGet [(p, nref)] p with
      | none => []
      | some new_ref =>
        match resolve_box_schema oref oc, resolve_box_schema new_ref nc with
        | some old_s, some new_s =>
            diff_schema loc (ctx ++ "." ++ p) old_s new_s dir oc nc (depth + 1)
        | _, _ => []) = _
    rw [show mapGet [(p, nref)] p = some nref by simp [mapGet]]
    rw [hos]
    show (match (some os : Option Schema), resolve_box_schema nref nc with
      | some old_s, some new_s =>
          diff_schema loc (ctx ++ "." ++ p) old_s new_s dir oc nc (depth + 1)
      | _, _ => []) = _
    rw [hns]

/-- Witness for C4 exercising the guard at depth 10 and the two
depth-increment equations at depth 0. -/
theorem diff_schema_depth_guard_witness :
    diff_schema (Location.Path "/w") "c" schemaUserW schemaUserW
        Direction.Request none none 10 = [] ∧
      diff_schema (Location.Path "/w") "c"
          (.mk (.Ty (.Array ⟨some (.Item schemaUserW)⟩)))
          (.mk (.Ty (.Array ⟨some (.Item schemaUserW)⟩)))
          Direction.Request none none 0
        = diff_schema (Location.Path "/w") ("c" ++ "[]") schemaUserW schemaUserW
            Direction.Request none none 1 ∧
      diff_schema (Location.Path "/w") "c"
          (.mk (.Ty (.Object (.mk [("child", .Item schemaUserW)] []))))
          (.mk (.Ty (.Object (.mk [("child", .Item schemaUserW)] []))))
          Direction.Request none none 0
        = diff_schema (Location.Path "/w") ("c" ++ "." ++ "child") schemaUserW schemaUserW
            Direction.Request none none 1 :=
  ⟨diff_schema_depth_guard.2.1 _ _ _ _ _ _ _ 10 (by decide),
   diff_schema_depth_guard.2.2.1 _ _ _ _ _ _ _ 0 _ _ (by decide) rfl rfl,
   diff_schema_depth_guard.2.2.2 _ _ "child" _ _ _ _ _ 0 _ _ (by decide) rfl rfl⟩

/-! ## C6: single-hop reference resolution -/

theorem stripPrefixChars_eq_some : ∀ (p s t : List Char),
    stripPrefixChars p s = some t ↔ s = p ++ t := by
  intro p
  induction p with
  | nil =>
    intro s t
    simp only [stripPrefixChars, Option.some.injEq, List.nil_append]
  | cons a p ih =>
    intro s t
    cases s with
    | nil => simp [stripPrefixChars]
    | cons b s =>
      by_cases hab : a = b
      · subst hab
        simp [stripPrefixChars, ih]
      · simp [stripPrefixChars, hab, Ne.symm hab]

theorem stripPrefixStr_eq_some (s pre t : String) :
    stripPrefixStr s pre = some t ↔ s = pre ++ t := by
  unfold stripPrefixStr
  constructor
  · intro h
    obtain ⟨cs, hcs, hmk⟩ := Option.map_eq_some'.mp h
    have hd := (stripPrefixChars_eq_some pre.data s.data cs).mp hcs
    apply String.ext
    rw [hd, ← hmk]
    rfl
  · intro h
    subst h
    rw [(stripPrefixChars_eq_some pre.data (pre ++ t).data t.data).mpr rfl]
    show some (String.mk t.data) = some t
    cases t
    rfl

/-- C6: resolution is total and single-hop.  An `Item` resolves to
itself; a `Reference` resolves to `some` value exactly when the
reference string is the exact expected prefix followed by a name, the
components section is present, the name maps to an entry, and that
entry is itself inline; in every other case (wrong prefix, missing
components, unknown name, reference to a reference) it yields nothing.
Shown for the schema and parameter resolvers cited by the claim.
Additionally, a shared media type whose schema fails to resolve on
either side contributes no changes to `diff_content`. -/
theorem resolver_single_hop :
    (∀ (x : Schema) (comps : Option Components), resolve_schema (.Item x) comps = some x) ∧
    (∀ (ref : String) (comps : Option Components) (s : Schema),
      resolve_schema (.Reference ref) comps = some s ↔
        ∃ name c, ref = "#/components/schemas/" ++ name ∧ comps = some c ∧
          mapGet c.schemas name = some (.Item s)) ∧
    (∀ (x : Parameter) (comps : Option Components), resolve_param (.Item x) comps = some x) ∧
    (∀ (ref : String) (comps : Option Components) (p : Parameter),
      resolve_param (.Reference ref) comps = some p ↔
        ∃ name c, ref = "#/components/parameters/" ++ name ∧ comps = some c ∧
          mapGet c.parameters name = some (.Item p)) ∧
    (∀ (loc : Location) (label mt : String) (m1 m2 : MediaType) (dir : Direction)
      (os ns : OpenAPI),
      ((m1.schema.bind fun r => resolve_schema r os.components) = none ∨
       (m2.schema.bind fun r => resolve_schema r ns.components) = none) →
      diff_content loc label [(mt, m1)] [(mt, m2)] dir os ns = []) := by
  refine ⟨fun x comps => rfl, fun ref comps s => ?_, fun x comps => rfl,
    fun ref comps p => ?_, fun loc label mt m1 m2 dir os ns hnone => ?_⟩
  · simp only [resolve_schema]
    constructor
    · intro h
      obtain ⟨name, hstrip, h⟩ := Option.bind_eq_some.mp h
      obtain ⟨entry, hentry, hit⟩ := Option.bind_eq_some.mp h
      obtain ⟨c, hc, hget⟩ := Option.bind_eq_some.mp hentry
      refine ⟨name, c, (stripPrefixStr_eq_some _ _ _).mp hstrip, hc, ?_⟩
      match entry, hit with
      | .Item y, hit =>
        simp only [ReferenceOr.as_item, Option.some.injEq] at hit
        rw [hget, hit]
    · rintro ⟨name, c, href, hc, hget⟩
      rw [(stripPrefixStr_eq_some ref "#/components/schemas/" name).mpr href]
      rw [Option.some_bind, hc, Option.some_bind, hget, Option.some_bind]
      rfl
  · simp only [resolve_param]
    constructor
    · intro h
      obtain ⟨name, hstrip, h⟩ := Option.bind_eq_some.mp h
      obtain ⟨entry, hentry, hit⟩ := Option.bind_eq_some.mp h
      obtain ⟨c, hc, hget⟩ := Option.bind_eq_some.mp hentry
      refine ⟨name, c, (stripPrefixStr_eq_some _ _ _).mp hstrip, hc, ?_⟩
      match entry, hit with
      | .Item y, hit =>
        simp only [ReferenceOr.as_item, Option.some.injEq] at hit
        rw [hget, hit]
    · rintro ⟨name, c, href, hc, hget⟩
      rw [(stripPrefixStr_eq_some ref "#/components/parameters/" name).mpr href]
      rw [Option.some_bind, hc, Option.some_bind, hget, Option.some_bind]
      rfl
  · simp only [diff_content, List.flatMap_cons, List.flatMap_nil, List.append_nil,
      List.filterMap_cons]
    rw [show mapGet [(mt, m2)] mt = some m2 by simp [mapGet]]
    rw [show containsKey [(mt, m1)] mt = true by simp [containsKey, mapGet]]
    show (match m1.schema.bind fun r => resolve_schema r os.components,
          m2.schema.bind fun r => resolve_schema r ns.components with
      | some old_s, some new_s =>
          diff_schema loc (label ++ " " ++ mt) old_s new_s dir
            os.components ns.components 0
      | _, _ => []) ++ List.filterMap _ [] = []
    rcases hnone with h | h
    · rw [h]
      rcases m2.schema.bind fun r => resolve_schema r ns.components with - | - <;> rfl
    · rw [h]
      rcases m1.schema.bind fun r => resolve_schema r os.components with - | - <;> rfl

/-- Witness for C6's last conjunct: a dangling reference on the old side
of a shared media type yields no changes. -/
theorem resolver_single_hop_witness :
    ((MediaType.mk (some (.Reference "#/components/schemas/Missing"))).schema.bind
        fun r => resolve_schema r docW.components) = none ∧
      diff_content (Location.Path "/w") "request body"
        [("application/json", MediaType.mk (some (.Reference "#/components/schemas/Missing")))]
        [("application/json", MediaType.mk (some (.Reference "#/components/schemas/Missing")))]
        Direction.Request docW docW = [] := by
  refine ⟨rfl, ?_⟩
  exact resolver_single_hop.2.2.2.2 (Location.Path "/w") "request body" "application/json"
    (MediaType.mk (some (.Reference "#/components/schemas/Missing")))
    (MediaType.mk (some (.Reference "#/components/schemas/Missing")))
    Direction.Request docW docW (Or.inl rfl)

/-! ## C5: string enumeration comparison -/

/-- C5: with both enumerations empty no change is emitted; otherwise
every non-null value in old but not new yields a Breaking "removed"
change regardless of direction, and every non-null value in new but not
old yields an "added" change that is Breaking under Response and
NonBreaking under Request. -/
theorem diff_string_enum_spec (loc : Location) (ctx : String) (old new : StringType)
    (dir : Direction) :
    (old.enumeration = [] → new.enumeration = [] →
      diff_string_enum loc ctx old new dir = []) ∧
    (∀ v : String, v ∈ old.enumeration.filterMap id →
      v ∉ new.enumeration.filterMap id →
      (⟨Severity.Breaking, loc, ctx ++ ": enum value " ++ q ++ v ++ q ++ " removed"⟩ : Change)
        ∈ diff_string_enum loc ctx old new dir) ∧
    (∀ v : String, v ∈ new.enumeration.filterMap id →
      v ∉ old.enumeration.filterMap id →
      (⟨(match dir with
          | .Response => Severity.Breaking
          | .Request => Severity.NonBreaking), loc,
        ctx ++ ": enum value " ++ q ++ v ++ q ++ " added"⟩ : Change)
        ∈ diff_string_enum loc ctx old new dir) := by
  refine ⟨fun ho hn => ?_, fun v hv hnv => ?_, fun v hv hnv => ?_⟩
  · unfold diff_string_enum
    rw [if_pos (by simp [ho, hn])]
  · have hne : ¬ (old.enumeration.isEmpty && new.enumeration.isEmpty) = true := by
      cases he : old.enumeration with
      | nil => rw [he] at hv; simp at hv
      | cons a tl => simp [he]
    unfold diff_string_enum
    rw [if_neg hne]
    refine List.mem_append.mpr (Or.inl ?_)
    refine List.mem_filterMap.mpr ⟨v, List.mem_dedup.mpr hv, ?_⟩
    rw [if_neg (fun hmem => hnv (List.mem_dedup.mp hmem))]
  · have hne : ¬ (old.enumeration.isEmpty && new.enumeration.isEmpty) = true := by
      cases he : new.enumeration with
      | nil => rw [he] at hv; simp at hv
      | cons a tl => simp [he]
    unfold diff_string_enum
    rw [if_neg hne]
    refine List.mem_append.mpr (Or.inr ?_)
    refine List.mem_filterMap.mpr ⟨v, List.mem_dedup.mpr hv, ?_⟩
    rw [if_neg (fun hmem => hnv (List.mem_dedup.mp hmem))]

/-- Witness for C5: removing "pending" from a response enum is
Breaking, and the added value "archived" is Breaking under Response. -/
theorem diff_string_enum_spec_witness :
    ("pending" ∈ (StringType.mk [some "active", some "pending"]).enumeration.filterMap id ∧
      "pending" ∉ (StringType.mk [some "active", some "archived"]).enumeration.filterMap id) ∧
    (⟨Severity.Breaking, Location.Path "/w",
      "c" ++ ": enum value " ++ q ++ "pending" ++ q ++ " removed"⟩ : Change)
      ∈ diff_string_enum (Location.Path "/w") "c"
          (StringType.mk [some "active", some "pending"])
          (StringType.mk [some "active", some "archived"]) Direction.Response ∧
    (⟨Severity.Breaking, Location.Path "/w",
      "c" ++ ": enum value " ++ q ++ "archived" ++ q ++ " added"⟩ : Change)
      ∈ diff_string_enum (Location.Path "/w") "c"
          (StringType.mk [some "active", some "pending"])
          (StringType.mk [some "active", some "archived"]) Direction.Response :=
  ⟨⟨by decide, by decide⟩,
   (diff_string_enum_spec (Location.Path "/w") "c"
      (StringType.mk [some "active", some "pending"])
      (StringType.mk [some "active", some "archived"]) Direction.Response).2.1
      "pending" (by decide) (by decide),
   (diff_string_enum_spec (Location.Path "/w") "c"
      (StringType.mk [some "active", some "pending"])
      (StringType.mk [some "active", some "archived"]) Direction.Response).2.2
      "archived" (by decide) (by decide)⟩

/-! ## String helpers for message disambiguation -/

theorem str_data_append (s t : String) : (s ++ t).data = s.data ++ t.data := rfl

theorem append_fixed_suffix_ne {α : Type} (x y A B : List α)
    (hlen : A.length ≤ B.length) (hne : A ≠ B.drop (B.length - A.length)) :
    x ++ A ≠ y ++ B := by
  intro h
  apply hne
  have hB : B = B.take (B.length - A.length) ++ B.drop (B.length - A.length) :=
    (List.take_append_drop _ _).symm
  rw [hB, ← List.append_assoc] at h
  exact (List.append_inj' h (by simp [List.length_drop]; omega)).2

theorem char_mem_append_left {c : Char} {s : String} (t : String) (h : c ∈ s.data) :
    c ∈ (s ++ t).data := by
  rw [str_data_append]
  exact List.mem_append.mpr (Or.inl h)

theorem char_mem_append_right {c : Char} (s : String) {t : String} (h : c ∈ t.data) :
    c ∈ (s ++ t).data := by
  rw [str_data_append]
  exact List.mem_append.mpr (Or.inr h)

theorem ne_of_char_mem {c : Char} {s t : String} (h1 : c ∈ s.data) (h2 : c ∉ t.data) :
    s ≠ t := fun he => h2 (he ▸ h1)

/-- The apostrophe is in `q`. -/
theorem qc_mem_q : Char.ofNat 39 ∈ q.data := by decide

/-! ## Membership characterization of the object-layer segments -/

theorem mem_objectBecameRequired {loc : Location} {ctx : String} {old new : ObjectType}
    {dir : Direction} {c : Change} :
    c ∈ objectBecameRequired loc ctx old new dir ↔
      ∃ p ∈ new.required, old.required.contains p = false ∧
        containsKey old.properties p = true ∧
        c = ⟨(match dir with
                | .Request => Severity.Breaking
                | .Response => Severity.NonBreaking), loc,
          ctx ++ ": property " ++ q ++ p ++ q ++ " became required"⟩ := by
  rw [objectBecameRequired.eq_def, List.mem_filterMap]
  constructor
  · rintro ⟨p, hp, hf⟩
    by_cases hcond : (!(old.required.contains p) && containsKey old.properties p) = true
    · rw [if_pos hcond] at hf
      injection hf with hf
      simp only [Bool.and_eq_true, Bool.not_eq_true'] at hcond
      exact ⟨p, hp, hcond.1, hcond.2, hf.symm⟩
    · rw [if_neg hcond] at hf
      cases hf
  · rintro ⟨p, hp, h1, h2, rfl⟩
    exact ⟨p, hp, by rw [if_pos (by rw [h1, h2]; rfl)]⟩

theorem mem_objectBecameOptional {loc : Location} {ctx : String} {old new : ObjectType}
    {dir : Direction} {c : Change} :
    c ∈ objectBecameOptional loc ctx old new dir ↔
      ∃ p ∈ old.required, new.required.contains p = false ∧
        containsKey new.properties p = true ∧
        c = ⟨(match dir with
                | .Request => Severity.NonBreaking
                | .Response => Severity.Breaking), loc,
          ctx ++ ": property " ++ q ++ p ++ q ++ " became optional"⟩ := by
  rw [objectBecameOptional.eq_def, List.mem_filterMap]
  constructor
  · rintro ⟨p, hp, hf⟩
    by_cases hcond : (!(new.required.contains p) && containsKey new.properties p) = true
    · rw [if_pos hcond] at hf
      injection hf with hf
      simp only [Bool.and_eq_true, Bool.not_eq_true'] at hcond
      exact ⟨p, hp, hcond.1, hcond.2, hf.symm⟩
    · rw [if_neg hcond] at hf
      cases hf
  · rintro ⟨p, hp, h1, h2, rfl⟩
    exact ⟨p, hp, by rw [if_pos (by rw [h1, h2]; rfl)]⟩

theorem mem_objectRemoved {loc : Location} {ctx : String} {old new : ObjectType}
    {dir : Direction} {c : Change} :
    c ∈ objectRemoved loc ctx old new dir ↔
      ∃ pr ∈ old.properties, containsKey new.properties pr.1 = false ∧
        c = ⟨(match dir with
                | .Response => Severity.Breaking
                | .Request => Severity.NonBreaking), loc,
          ctx ++ ": property " ++ q ++ pr.1 ++ q ++ " removed"⟩ := by
  rw [objectRemoved.eq_def, List.mem_filterMap]
  constructor
  · rintro ⟨pr, hpr, hf⟩
    by_cases hcond : containsKey new.properties pr.1 = true
    · rw [if_pos hcond] at hf
      cases hf
    · rw [if_neg hcond] at hf
      injection hf with hf
      exact ⟨pr, hpr, by simpa using hcond, hf.symm⟩
  · rintro ⟨pr, hpr, h1, rfl⟩
    exact ⟨pr, hpr, by rw [if_neg (by simp [h1])]⟩

theorem mem_objectAdded {loc : Location} {ctx : String} {old new : ObjectType}
    {dir : Direction} {c : Change} :
    c ∈ objectAdded loc ctx old new dir ↔
      ∃ pr ∈ new.properties, containsKey old.properties pr.1 = false ∧
        c = ⟨(match dir, new.required.contains pr.1 with
                | .Request, true => Severity.Breaking
                | _, _ => Severity.NonBreaking), loc,
          ctx ++ ": property " ++ q ++ pr.1 ++ q ++ " added"⟩ := by
  rw [objectAdded.eq_def, List.mem_filterMap]
  constructor
  · rintro ⟨pr, hpr, hf⟩
    by_cases hcond : containsKey old.properties pr.1 = true
    · rw [if_pos hcond] at hf
      cases hf
    · rw [if_neg hcond] at hf
      injection hf with hf
      exact ⟨pr, hpr, by simpa using hcond, hf.symm⟩
  · rintro ⟨pr, hpr, h1, rfl⟩
    exact ⟨pr, hpr, by rw [if_neg (by simp [h1])]⟩

/-! ## Message/location invariant of the schema layers -/

/-- Every change of the schema layer carries the given location, a
message extending the comparison context, and a colon (charcode 58) in
its message. -/
def msgInv (loc : Location) (ctx : String) (c : Change) : Prop :=
  c.location = loc ∧ (∃ rest, c.message.data = ctx.data ++ rest) ∧
    Char.ofNat 58 ∈ c.message.data

theorem msgInv_extend (loc : Location) (ctx ext : String) (c : Change)
    (h : msgInv loc (ctx ++ ext) c) : msgInv loc ctx c := by
  obtain ⟨h1, ⟨rest, h2⟩, h3⟩ := h
  exact ⟨h1, ⟨ext.data ++ rest, by
    rw [h2, str_data_append, List.append_assoc]⟩, h3⟩

theorem msgInv_prop (loc : Location) (sev : Severity) (ctx A p B : String)
    (hcol : Char.ofNat 58 ∈ A.data) :
    msgInv loc ctx ⟨sev, loc, ctx ++ A ++ q ++ p ++ q ++ B⟩ := by
  refine ⟨rfl, ⟨(A ++ q ++ p ++ q ++ B).data, ?_⟩, ?_⟩
  · simp [str_data_append, List.append_assoc]
  · exact char_mem_append_left _ (char_mem_append_left _ (char_mem_append_left _
      (char_mem_append_left _ (char_mem_append_right ctx hcol))))

theorem msgInv_typechange (loc : Location) (sev : Severity) (ctx A x B y : String)
    (hcol : Char.ofNat 58 ∈ A.data) :
    msgInv loc ctx ⟨sev, loc, ctx ++ A ++ x ++ B ++ y⟩ := by
  refine ⟨rfl, ⟨(A ++ x ++ B ++ y).data, ?_⟩, ?_⟩
  · simp [str_data_append, List.append_assoc]
  · exact char_mem_append_left _ (char_mem_append_left _ (char_mem_append_left _
      (char_mem_append_right ctx hcol)))

theorem diff_string_enum_inv (loc : Location) (ctx : String) (ost nst : StringType)
    (dir : Direction) :
    ∀ c ∈ diff_string_enum loc ctx ost nst dir, msgInv loc ctx c := by
  intro c hc
  unfold diff_string_enum at hc
  split at hc
  · simp at hc
  · rcases List.mem_append.mp hc with hc | hc
    · obtain ⟨v, hv, hf⟩ := List.mem_filterMap.mp hc
      by_cases hmem : v ∈ (nst.enumeration.filterMap id).dedup
      · rw [if_pos hmem] at hf
        cases hf
      · rw [if_neg hmem] at hf
        injection hf with hf
        rw [← hf]
        exact msgInv_prop loc _ ctx (": enum value ") v (" removed") (by decide)
    · obtain ⟨v, hv, hf⟩ := List.mem_filterMap.mp hc
      by_cases hmem : v ∈ (ost.enumeration.filterMap id).dedup
      · rw [if_pos hmem] at hf
        cases hf
      · rw [if_neg hmem] at hf
        injection hf with hf
        rw [← hf]
        exact msgInv_prop loc _ ctx (": enum value ") v (" added") (by decide)

/-- The object layer preserves the invariant provided its recursive
schema comparisons (at `depth + 1`, with a `"."`-extended context) do. -/
theorem diff_object_inv_of (loc : Location) (ctx : String) (oo no : ObjectType)
    (dir : Direction) (oc nc : Option Components) (depth : Nat)
    (hrec : ∀ (p : String) (os ns : Schema) (c : Change),
      c ∈ diff_schema loc (ctx ++ "." ++ p) os ns dir oc nc (depth + 1) →
      msgInv loc ctx c) :
    ∀ c ∈ diff_object loc ctx oo no dir oc nc depth, msgInv loc ctx c := by
  intro c hc
  rw [diff_object] at hc
  rcases List.mem_append.mp hc with hc | hc
  · rcases List.mem_append.mp hc with hc | hc
    · rcases List.mem_append.mp hc with hc | hc
      · rcases List.mem_append.mp hc with hc | hc
        · obtain ⟨pr, -, -, rfl⟩ := mem_objectRemoved.mp hc
          exact msgInv_prop loc _ ctx (": property ") pr.1 (" removed") (by decide)
        · obtain ⟨pr, -, -, rfl⟩ := mem_objectAdded.mp hc
          exact msgInv_prop loc _ ctx (": property ") pr.1 (" added") (by decide)
      · obtain ⟨p, -, -, -, rfl⟩ := mem_objectBecameRequired.mp hc
        exact msgInv_prop loc _ ctx (": property ") p (" became required") (by decide)
    · obtain ⟨p, -, -, -, rfl⟩ := mem_objectBecameOptional.mp hc
      exact msgInv_prop loc _ ctx (": property ") p (" became optional") (by decide)
  · obtain ⟨pr, hpr, hcc⟩ := List.mem_bind.mp hc
    rcases hget : mapGet no.properties pr.1 with - | nref
    · rw [hget] at hcc
      simp at hcc
    · rw [hget] at hcc
      have hcc2 : c ∈ (match resolve_box_schema pr.2 oc, resolve_box_schema nref nc with
        | some old_s, some new_s =>
            diff_schema loc (ctx ++ "." ++ pr.1) old_s new_s dir oc nc (depth + 1)
        | _, _ => []) := hcc
      rcases hro : resolve_box_schema pr.2 oc with - | os <;>
        rcases hrn : resolve_box_schema nref nc with - | ns <;>
        rw [hro, hrn] at hcc2
      · exact absurd hcc2 (List.not_mem_nil c)
      · exact absurd hcc2 (List.not_mem_nil c)
      · exact absurd hcc2 (List.not_mem_nil c)
      · exact hrec pr.1 os ns c hcc2

theorem diff_schema_inv : ∀ (n depth : Nat), MAX_DEPTH - depth ≤ n →
    ∀ (loc : Location) (ctx : String) (dir : Direction) (oc nc : Option Components),
      (∀ (old new : Schema) (c : Change),
        c ∈ diff_schema loc ctx old new dir oc nc depth → msgInv loc ctx c) ∧
      (∀ (oo no : ObjectType) (c : Change),
        c ∈ diff_object loc ctx oo no dir oc nc depth → msgInv loc ctx c) := by
  intro n
  induction n with
  | zero =>
    intro depth hd loc ctx dir oc nc
    have hge : depth ≥ MAX_DEPTH := by simp only [MAX_DEPTH] at *; omega
    constructor
    · intro old new c hc
      rw [diff_schema, dif_pos hge] at hc
      simp at hc
    · intro oo no c hc
      refine diff_object_inv_of loc ctx oo no dir oc nc depth ?_ c hc
      intro p os ns c' hc'
      rw [diff_schema, dif_pos (by simp only [MAX_DEPTH] at *; omega)] at hc'
      simp at hc'
  | succ k ih =>
    intro depth hd loc ctx dir oc nc
    by_cases hge : depth ≥ MAX_DEPTH
    · constructor
      · intro old new c hc
        rw [diff_schema, dif_pos hge] at hc
        simp at hc
      · intro oo no c hc
        refine diff_object_inv_of loc ctx oo no dir oc nc depth ?_ c hc
        intro p os ns c' hc'
        rw [diff_schema, dif_pos (by simp only [MAX_DEPTH] at *; omega)] at hc'
        simp at hc'
    · have hd1 : MAX_DEPTH - (depth + 1) ≤ k := by simp only [MAX_DEPTH] at *; omega
      have hobj : ∀ (oo no : ObjectType) (c : Change),
          c ∈ diff_object loc ctx oo no dir oc nc depth → msgInv loc ctx c := by
        intro oo no c hc
        refine diff_object_inv_of loc ctx oo no dir oc nc depth ?_ c hc
        intro p os ns c' hc'
        have h := (ih (depth + 1) hd1 loc (ctx ++ "." ++ p) dir oc nc).1 os ns c' hc'
        exact msgInv_extend loc ctx "." c'
          (msgInv_extend loc (ctx ++ ".") p c' h)
      refine ⟨?_, hobj⟩
      intro old new c hc
      rw [diff_schema, dif_neg hge] at hc
      split at hc
      · simp only [ne_eq] at hc
        split at hc
        · simp only [List.mem_singleton] at hc
          subst hc
          exact msgInv_typechange loc _ ctx (": type changed from ") _ (" to ") _ (by decide)
        · exact hobj _ _ c hc
      · simp only [ne_eq] at hc
        split at hc
        · simp only [List.mem_singleton] at hc
          subst hc
          exact msgInv_typechange loc _ ctx (": type changed from ") _ (" to ") _ (by decide)
        · split at hc
          · have h := (ih (depth + 1) hd1 loc (ctx ++ "[]") dir oc nc).1 _ _ c hc
            exact msgInv_extend loc ctx "[]" c h
          · simp at hc
      · simp only [ne_eq] at hc
        split at hc
        · simp only [List.mem_singleton] at hc
          subst hc
          exact msgInv_typechange loc _ ctx (": type changed from ") _ (" to ") _ (by decide)
        · exact diff_string_enum_inv loc ctx _ _ dir c hc
      · simp only [ne_eq] at hc
        split at hc
        · simp only [List.mem_singleton] at hc
          subst hc
          exact msgInv_typechange loc _ ctx (": type changed from ") _ (" to ") _ (by decide)
        · simp at hc

theorem ne_depr_of_qc {s : String} (h : Char.ofNat 39 ∈ s.data) :
    s ≠ "operation deprecated" := ne_of_char_mem h (by decide)

theorem ne_depr_of_colon {s : String} (h : Char.ofNat 58 ∈ s.data) :
    s ≠ "operation deprecated" := ne_of_char_mem h (by decide)

theorem diff_content_inv (loc : Location) (label : String)
    (oldc newc : List (String × MediaType)) (dir : Direction) (os ns : OpenAPI) :
    ∀ c ∈ diff_content loc label oldc newc dir os ns,
      c.location = loc ∧ Char.ofNat 58 ∈ c.message.data := by
  intro c hc
  simp only [diff_content] at hc
  rcases List.mem_append.mp hc with hc | hc
  · obtain ⟨me, hme, hcc⟩ := List.mem_bind.mp hc
    rcases hget : mapGet newc me.1 with - | nmt
    · rw [hget] at hcc
      simp only [List.mem_singleton] at hcc
      subst hcc
      have h := msgInv_prop loc Severity.Breaking label (": media type ") me.1
        (" removed") (by decide)
      exact ⟨h.1, h.2.2⟩
    · rw [hget] at hcc
      have hcc2 : c ∈ (match me.2.schema.bind fun r => resolve_schema r os.components,
            nmt.schema.bind fun r => resolve_schema r ns.components with
        | some old_s, some new_s =>
            diff_schema loc (label ++ " " ++ me.1) old_s new_s dir
              os.components ns.components 0
        | _, _ => []) := hcc
      rcases hro : me.2.schema.bind fun r => resolve_schema r os.components with - | sa <;>
        rcases hrn : nmt.schema.bind fun r => resolve_schema r ns.components with - | sb <;>
        rw [hro, hrn] at hcc2
      · exact absurd hcc2 (List.not_mem_nil c)
      · exact absurd hcc2 (List.not_mem_nil c)
      · exact absurd hcc2 (List.not_mem_nil c)
      · have h := (diff_schema_inv MAX_DEPTH 0 (by simp) loc (label ++ " " ++ me.1)
          dir os.components ns.components).1 sa sb c hcc2
        exact ⟨h.1, h.2.2⟩
  · obtain ⟨me, hme, hf⟩ := List.mem_filterMap.mp hc
    by_cases hcond : containsKey oldc me.1 = true
    · rw [if_pos hcond] at hf
      cases hf
    · rw [if_neg hcond] at hf
      injection hf with hf
      subst hf
      have h := msgInv_prop loc Severity.NonBreaking label (": media type ") me.1
        (" added") (by decide)
      exact ⟨h.1, h.2.2⟩

theorem diff_responses_inv (loc : Location) (old new : Responses) (os ns : OpenAPI) :
    ∀ c ∈ diff_responses loc old new os ns,
      c.location = loc ∧ c.message ≠ "operation deprecated" := by
  intro c hc
  simp only [diff_responses] at hc
  rcases List.mem_append.mp hc with hc | hc
  · obtain ⟨ce, hce, hcc⟩ := List.mem_bind.mp hc
    rcases hget : mapGet new.responses ce.1 with - | nref
    · rw [hget] at hcc
      simp only [List.mem_singleton] at hcc
      subst hcc
      refine ⟨rfl, ne_depr_of_qc ?_⟩
      exact char_mem_append_left (" removed")
        (char_mem_append_right ("response " ++ q ++ status_code_str ce.1) qc_mem_q)
    · rw [hget] at hcc
      have hcc2 : c ∈ (match resolve_response ce.2 os, resolve_response nref ns with
        | some old_resp, some new_resp =>
            diff_content loc ("response " ++ q ++ status_code_str ce.1 ++ q)
              old_resp.content new_resp.content Direction.Response os ns
        | _, _ => []) := hcc
      rcases hro : resolve_response ce.2 os with - | oresp <;>
        rcases hrn : resolve_response nref ns with - | nresp <;>
        rw [hro, hrn] at hcc2
      · exact absurd hcc2 (List.not_mem_nil c)
      · exact absurd hcc2 (List.not_mem_nil c)
      · exact absurd hcc2 (List.not_mem_nil c)
      · have h := diff_content_inv loc _ oresp.content nresp.content
          Direction.Response os ns c hcc2
        exact ⟨h.1, ne_depr_of_colon h.2⟩
  · obtain ⟨ce, hce, hf⟩ := List.mem_filterMap.mp hc
    by_cases hcond : containsKey old.responses ce.1 = true
    · rw [if_pos hcond] at hf
      cases hf
    · rw [if_neg hcond] at hf
      injection hf with hf
      subst hf
      refine ⟨rfl, ne_depr_of_qc ?_⟩
      exact char_mem_append_left (" added")
        (char_mem_append_right ("response " ++ q ++ status_code_str ce.1) qc_mem_q)

theorem diff_request_body_inv (loc : Location)
    (ob nb : Option (ReferenceOr RequestBody)) (os ns : OpenAPI) :
    ∀ c ∈ diff_request_body loc ob nb os ns,
      c.location = loc ∧ c.message ≠ "operation deprecated" := by
  intro c hc
  simp only [diff_request_body] at hc
  rcases hro : ob.bind fun r => resolve_request_body r os with - | orb <;>
    rcases hrn : nb.bind fun r => resolve_request_body r ns with - | nrb <;>
    rw [hro, hrn] at hc
  · exact absurd hc (List.not_mem_nil c)
  · simp only [List.mem_singleton] at hc
    subst hc
    refine ⟨rfl, ?_⟩
    show ("request body added" : String) ≠ "operation deprecated"
    decide
  · simp only [List.mem_singleton] at hc
    subst hc
    refine ⟨rfl, ?_⟩
    show ("request body removed" : String) ≠ "operation deprecated"
    decide
  · rcases List.mem_append.mp hc with hc | hc
    · split at hc
      · simp only [List.mem_singleton] at hc
        subst hc
        refine ⟨rfl, ?_⟩
        show ("request body became required" : String) ≠ "operation deprecated"
        decide
      · exact absurd hc (List.not_mem_nil c)
    · have h := diff_content_inv loc ("request body") orb.content nrb.content
        Direction.Request os ns c hc
      exact ⟨h.1, ne_depr_of_colon h.2⟩

theorem diff_parameters_inv (loc : Location) (ops nps : List (ReferenceOr Parameter))
    (oc nc : Option Components) :
    ∀ c ∈ diff_parameters loc ops nps oc nc,
      c.location = loc ∧ c.message ≠ "operation deprecated" := by
  intro c hc
  simp only [diff_parameters] at hc
  rcases List.mem_append.mp hc with hc | hc
  · obtain ⟨ke, hke, hcc⟩ := List.mem_bind.mp hc
    rcases hget : mapGet (buildParamMap nps nc) ke.1 with - | np
    · rw [hget] at hcc
      simp only [List.mem_singleton] at hcc
      subst hcc
      refine ⟨rfl, ne_depr_of_qc ?_⟩
      exact char_mem_append_left (" removed")
        (char_mem_append_right (ke.1.location ++ " parameter " ++ q ++ ke.1.name) qc_mem_q)
    · rw [hget] at hcc
      rcases List.mem_append.mp hcc with hcc | hcc
      · rcases List.mem_append.mp hcc with hcc | hcc
        · split at hcc
          · simp only [List.mem_singleton] at hcc
            subst hcc
            refine ⟨rfl, ne_depr_of_qc ?_⟩
            exact char_mem_append_left (" became required")
              (char_mem_append_right ("parameter " ++ q ++ ke.1.name) qc_mem_q)
          · exact absurd hcc (List.not_mem_nil c)
        · split at hcc
          · simp only [List.mem_singleton] at hcc
            subst hcc
            refine ⟨rfl, ne_depr_of_qc ?_⟩
            exact char_mem_append_left (" became optional")
              (char_mem_append_right ("parameter " ++ q ++ ke.1.name) qc_mem_q)
          · exact absurd hcc (List.not_mem_nil c)
      · simp only [diff_parameter_type, ne_eq] at hcc
        split at hcc
        · split at hcc
          · simp only [List.mem_singleton] at hcc
            subst hcc
            refine ⟨rfl, ne_depr_of_qc ?_⟩
            exact char_mem_append_left _ (char_mem_append_left _ (char_mem_append_left _
              (char_mem_append_left (" type changed from ")
                (char_mem_append_right ("parameter " ++ q ++ ke.1.name) qc_mem_q))))
          · exact absurd hcc (List.not_mem_nil c)
        · exact absurd hcc (List.not_mem_nil c)
  · obtain ⟨ke, hke, hf⟩ := List.mem_filterMap.mp hc
    by_cases hcond : containsKey (buildParamMap ops oc) ke.1 = true
    · rw [if_pos hcond] at hf
      cases hf
    · rw [if_neg hcond] at hf
      injection hf with hf
      subst hf
      refine ⟨rfl, ne_depr_of_qc ?_⟩
      exact char_mem_append_left (" added")
        (char_mem_append_right (ke.1.location ++ " parameter " ++ q ++ ke.1.name) qc_mem_q)

theorem diff_operation_loc (loc : Location) (oop nop : Operation) (os ns : OpenAPI) :
    ∀ c ∈ diff_operation loc oop nop os ns, c.location = loc := by
  intro c hc
  simp only [diff_operation] at hc
  rcases List.mem_append.mp hc with hc | hc
  · rcases List.mem_append.mp hc with hc | hc
    · rcases List.mem_append.mp hc with hc | hc
      · exact (diff_parameters_inv loc _ _ _ _ c hc).1
      · exact (diff_request_body_inv loc _ _ _ _ c hc).1
    · exact (diff_responses_inv loc _ _ _ _ c hc).1
  · split at hc
    · simp only [Option.toList_some, List.mem_singleton] at hc
      subst hc
      rfl
    · simp at hc

def methodNames : List String :=
  ["GET", "PUT", "POST", "DELETE", "OPTIONS", "HEAD", "PATCH", "TRACE"]

theorem diff_path_item_loc (path : String) (oi ni : PathItem) (os ns : OpenAPI) :
    ∀ c ∈ diff_path_item path oi ni os ns,
      ∃ m, c.location = Location.Operation path m ∧ m ∈ methodNames := by
  intro c hc
  simp only [diff_path_item] at hc
  obtain ⟨pe, hpe, hcc⟩ := List.mem_bind.mp hc
  have hm : pe.1.1 ∈ methodNames := by
    have h1 := (List.of_mem_zip hpe).1
    simp only [operations, List.mem_cons, List.mem_singleton, List.not_mem_nil,
      or_false] at h1
    rcases h1 with h|h|h|h|h|h|h|h <;> simp [h, methodNames]
  have hcc2 : c ∈ (match pe.1.2, pe.2.2 with
    | some _, none =>
        [(⟨Severity.Breaking, Location.Operation path pe.1.1,
          "operation removed"⟩ : Change)]
    | none, some _ =>
        [(⟨Severity.NonBreaking, Location.Operation path pe.1.1,
          "operation added"⟩ : Change)]
    | some old_op, some new_op =>
        diff_operation (Location.Operation path pe.1.1) old_op new_op os ns
    | none, none => []) := hcc
  rcases ho : pe.1.2 with - | oop <;> rcases hn : pe.2.2 with - | nop <;>
    rw [ho, hn] at hcc2
  · exact absurd hcc2 (List.not_mem_nil c)
  · simp only [List.mem_singleton] at hcc2
    subst hcc2
    exact ⟨pe.1.1, rfl, hm⟩
  · simp only [List.mem_singleton] at hcc2
    subst hcc2
    exact ⟨pe.1.1, rfl, hm⟩
  · exact ⟨pe.1.1, diff_operation_loc _ _ _ os ns c hcc2, hm⟩

/-! ## C7: locations of emitted changes -/

/-- C7: every change with a path-only location is one of the two L1
endpoint changes; every other change carries an operation location
whose method is one of the eight uppercase HTTP method names. -/
theorem change_location_spec (old new : OpenAPI) :
    ∀ c ∈ (diff_specs old new).changes,
      (∃ p, c.location = Location.Path p ∧
        (c.message = "endpoint removed" ∨ c.message = "endpoint added")) ∨
      (∃ p m, c.location = Location.Operation p m ∧ m ∈ methodNames) := by
  intro c hc
  simp only [diff_specs, Diff.new, diff_paths] at hc
  rcases List.mem_append.mp hc with hc | hc
  · rcases List.mem_append.mp hc with hc | hc
    · obtain ⟨pe, hpe, hf⟩ := List.mem_filterMap.mp hc
      by_cases hcond : containsKey new.paths pe.1 = true
      · rw [if_pos hcond] at hf
        cases hf
      · rw [if_neg hcond] at hf
        injection hf with hf
        subst hf
        exact Or.inl ⟨pe.1, rfl, Or.inl rfl⟩
    · obtain ⟨pe, hpe, hf⟩ := List.mem_filterMap.mp hc
      by_cases hcond : containsKey old.paths pe.1 = true
      · rw [if_pos hcond] at hf
        cases hf
      · rw [if_neg hcond] at hf
        injection hf with hf
        subst hf
        exact Or.inl ⟨pe.1, rfl, Or.inr rfl⟩
  · obtain ⟨pe, hpe, hcc⟩ := List.mem_bind.mp hc
    rcases hget : mapGet new.paths pe.1 with - | nref
    · rw [hget] at hcc
      simp at hcc
    · rw [hget] at hcc
      have hcc2 : c ∈ (match pe.2.as_item, nref.as_item with
        | some old_item, some new_item => diff_path_item pe.1 old_item new_item old new
        | _, _ => []) := hcc
      rcases hoi : pe.2.as_item with - | oi <;>
        rcases hni : nref.as_item with - | ni <;>
        rw [hoi, hni] at hcc2
      · exact absurd hcc2 (List.not_mem_nil c)
      · exact absurd hcc2 (List.not_mem_nil c)
      · exact absurd hcc2 (List.not_mem_nil c)
      · obtain ⟨m, hloc, hm⟩ := diff_path_item_loc pe.1 oi ni old new c hcc2
        exact Or.inr ⟨pe.1, m, hloc, hm⟩

def docEmptyW : OpenAPI := { paths := [], components := none }

/-- Witness for C7 at the endpoint-removal change of a concrete pair of
documents. -/
theorem change_location_spec_witness :
    ((⟨Severity.Breaking, Location.Path "/users", "endpoint removed"⟩ : Change)
      ∈ (diff_specs docW docEmptyW).changes) ∧
    ((∃ p, (Location.Path "/users") = Location.Path p ∧
        (("endpoint removed" : String) = "endpoint removed" ∨
          ("endpoint removed" : String) = "endpoint added")) ∨
      (∃ p m, (Location.Path "/users") = Location.Operation p m ∧ m ∈ methodNames)) :=
  ⟨by decide, change_location_spec docW docEmptyW
    ⟨Severity.Breaking, Location.Path "/users", "endpoint removed"⟩ (by decide)⟩

/-! ## C8: operation layer, deprecation transition and order -/

/-- C8: within an operation the changes are concatenated in the order
parameters, request body, responses, deprecation; the deprecation
segment is a single NonBreaking "operation deprecated" change exactly
when old.deprecated is false and new.deprecated is true; counting over
the whole operation output, that message occurs exactly once on the
false-to-true transition and never otherwise, and any change carrying
it is NonBreaking. -/
theorem diff_operation_spec (loc : Location) (old new : Operation) (os ns : OpenAPI) :
    diff_operation loc old new os ns =
      diff_parameters loc old.parameters new.parameters os.components ns.components
        ++ diff_request_body loc old.request_body new.request_body os ns
        ++ diff_responses loc old.responses new.responses os ns
        ++ (if old.deprecated = false ∧ new.deprecated = true then
              [⟨Severity.NonBreaking, loc, "operation deprecated"⟩] else []) ∧
    (diff_operation loc old new os ns).countP
        (fun c => c.message == "operation deprecated")
      = (if old.deprecated = false ∧ new.deprecated = true then 1 else 0) ∧
    (∀ c ∈ diff_operation loc old new os ns,
      c.message = "operation deprecated" → c.severity = Severity.NonBreaking) := by
  have heq : diff_operation loc old new os ns =
      diff_parameters loc old.parameters new.parameters os.components ns.components
        ++ diff_request_body loc old.request_body new.request_body os ns
        ++ diff_responses loc old.responses new.responses os ns
        ++ (if old.deprecated = false ∧ new.deprecated = true then
              [⟨Severity.NonBreaking, loc, "operation deprecated"⟩] else []) := by
    simp only [diff_operation]
    cases hod : old.deprecated <;> cases hnd : new.deprecated <;> simp
  have hz : ∀ (l : List Change), (∀ c ∈ l, c.message ≠ "operation deprecated") →
      l.countP (fun c => c.message == "operation deprecated") = 0 := by
    intro l hl
    refine List.countP_eq_zero.mpr fun c hc => ?_
    simp only [beq_eq_false_iff_ne, ne_eq, Bool.not_eq_true]
    exact hl c hc
  refine ⟨heq, ?_, ?_⟩
  · rw [heq]
    rw [List.countP_append, List.countP_append, List.countP_append]
    rw [hz _ (fun c hc => (diff_parameters_inv loc _ _ _ _ c hc).2)]
    rw [hz _ (fun c hc => (diff_request_body_inv loc _ _ _ _ c hc).2)]
    rw [hz _ (fun c hc => (diff_responses_inv loc _ _ _ _ c hc).2)]
    by_cases hdep : old.deprecated = false ∧ new.deprecated = true
    · rw [if_pos hdep, if_pos hdep]
      simp [List.countP_cons]
    · rw [if_neg hdep, if_neg hdep]
      rfl
  · intro c hc hmsg
    rw [heq] at hc
    rcases List.mem_append.mp hc with hc | hc
    · rcases List.mem_append.mp hc with hc | hc
      · rcases List.mem_append.mp hc with hc | hc
        · exact absurd hmsg (diff_parameters_inv loc _ _ _ _ c hc).2
        · exact absurd hmsg (diff_request_body_inv loc _ _ _ _ c hc).2
      · exact absurd hmsg (diff_responses_inv loc _ _ _ _ c hc).2
    · split at hc
      · simp only [List.mem_singleton] at hc
        subst hc
        rfl
      · simp at hc

def operationDeprW : Operation :=
  { parameters := [], request_body := none, responses := ⟨[]⟩, deprecated := true }

def operationPlainW : Operation :=
  { parameters := [], request_body := none, responses := ⟨[]⟩, deprecated := false }

/-- Witness for C8's membership part: the single change produced by a
false-to-true deprecation transition carries the expected message and
is NonBreaking. -/
theorem diff_operation_spec_witness :
    ((⟨Severity.NonBreaking, Location.Operation "/users" "GET",
        "operation deprecated"⟩ : Change)
      ∈ diff_operation (Location.Operation "/users" "GET") operationPlainW
          operationDeprW docEmptyW docEmptyW) ∧
    (⟨Severity.NonBreaking, Location.Operation "/users" "GET",
        "operation deprecated"⟩ : Change).severity = Severity.NonBreaking :=
  ⟨by decide,
   (diff_operation_spec (Location.Operation "/users" "GET") operationPlainW
      operationDeprW docEmptyW docEmptyW).2.2
     ⟨Severity.NonBreaking, Location.Operation "/users" "GET", "operation deprecated"⟩
     (by decide) rfl⟩

/-! ## C2: required-set transitions in object comparison -/

theorem prop_msg_ne (ctx a b sfx1 sfx2 : String)
    (hlen : (q.data ++ sfx1.data).length ≤ (q.data ++ sfx2.data).length)
    (hne : q.data ++ sfx1.data ≠
      (q.data ++ sfx2.data).drop
        ((q.data ++ sfx2.data).length - (q.data ++ sfx1.data).length)) :
    ctx ++ ": property " ++ q ++ a ++ q ++ sfx1 ≠
      ctx ++ ": property " ++ q ++ b ++ q ++ sfx2 := by
  intro h
  have hd := congrArg String.data h
  simp only [str_data_append, List.append_assoc] at hd
  have hd4 := List.append_cancel_left (List.append_cancel_left (List.append_cancel_left hd))
  exact append_fixed_suffix_ne a.data b.data _ _ hlen hne hd4

theorem prop_msg_inj (ctx a b sfx : String)
    (h : ctx ++ ": property " ++ q ++ a ++ q ++ sfx =
      ctx ++ ": property " ++ q ++ b ++ q ++ sfx) : a = b := by
  have hd := congrArg String.data h
  simp only [str_data_append, List.append_assoc] at hd
  have hd4 := List.append_cancel_left (List.append_cancel_left (List.append_cancel_left hd))
  exact String.ext (List.append_inj' hd4 rfl).1

/-- A change of the recursive property comparison (context extended with
a dot) can never carry a property-transition message of the enclosing
context: its message continues `ctx` with a dot, not a colon. -/
theorem prop_msg_not_recursed (loc : Location) (ctx pn P sfx : String)
    {c : Change} (hinv : msgInv loc (ctx ++ "." ++ pn) c)
    (heq : c.message = ctx ++ ": property " ++ q ++ P ++ q ++ sfx) : False := by
  obtain ⟨-, ⟨rest, hpre⟩, -⟩ := hinv
  rw [heq] at hpre
  simp only [str_data_append, List.append_assoc] at hpre
  have hcan := List.append_cancel_left hpre
  simp only [List.cons_append, List.singleton_append, List.cons.injEq] at hcan
  exact absurd hcan.1 (by decide)

def c2OldObj : ObjectType := .mk [("p", .Item (.mk (.Ty .Integer)))] []

def c2NewObj : ObjectType := .mk [] ["p"]

/-- Counterexample to C2 as stated: with `p` a property of the old
object only, `p` listed in the new object's required set, and
direction=Request, `diff_object` emits a Breaking "became required"
change for `p` although `p` is absent from `new.properties`. -/
theorem object_required_counterexample :
    diff_object (Location.Path "/w") "c" c2OldObj c2NewObj Direction.Request none none 0
      = [⟨Severity.NonBreaking, Location.Path "/w",
          "c" ++ ": property " ++ q ++ "p" ++ q ++ " removed"⟩,
         ⟨Severity.Breaking, Location.Path "/w",
          "c" ++ ": property " ++ q ++ "p" ++ q ++ " became required"⟩] ∧
    containsKey c2NewObj.properties "p" = false := by
  constructor
  · rw [diff_object]
    decide
  · decide

/-- C2 amended: in `diff_object`, a "became required" change for
property name `P` (with severity Breaking under Request, NonBreaking
under Response) is emitted iff `P` is in `new.required`, not in
`old.required`, and is a key of `old.properties` — `new.properties`
need not contain `P`.  Dually, a "became optional" change (NonBreaking
under Request, Breaking under Response) is emitted iff `P` is in
`old.required`, not in `new.required`, and is a key of
`new.properties`. -/
theorem object_required_transitions (loc : Location) (ctx : String)
    (old new : ObjectType) (dir : Direction) (oc nc : Option Components)
    (depth : Nat) (P : String) :
    ((⟨(match dir with
        | .Request => Severity.Breaking
        | .Response => Severity.NonBreaking), loc,
        ctx ++ ": property " ++ q ++ P ++ q ++ " became required"⟩ : Change)
        ∈ diff_object loc ctx old new dir oc nc depth ↔
      (P ∈ new.required ∧ old.required.contains P = false ∧
        containsKey old.properties P = true)) ∧
    ((⟨(match dir with
        | .Request => Severity.NonBreaking
        | .Response => Severity.Breaking), loc,
        ctx ++ ": property " ++ q ++ P ++ q ++ " became optional"⟩ : Change)
        ∈ diff_object loc ctx old new dir oc nc depth ↔
      (P ∈ old.required ∧ new.required.contains P = false ∧
        containsKey new.properties P = true)) := by
  constructor
  · constructor
    · intro hmem
      rw [diff_object] at hmem
      rcases List.mem_append.mp hmem with hc | hc
      · rcases List.mem_append.mp hc with hc | hc
        · rcases List.mem_append.mp hc with hc | hc
          · rcases List.mem_append.mp hc with hc | hc
            · obtain ⟨pr, -, -, heq⟩ := mem_objectRemoved.mp hc
              have hmsg := congrArg Change.message heq
              exact absurd hmsg.symm
                (prop_msg_ne ctx pr.1 P (" removed") (" became required")
                  (by decide) (by decide))
            · obtain ⟨pr, -, -, heq⟩ := mem_objectAdded.mp hc
              have hmsg := congrArg Change.message heq
              exact absurd hmsg.symm
                (prop_msg_ne ctx pr.1 P (" added") (" became required")
                  (by decide) (by decide))
          · obtain ⟨p, hp, h1, h2, heq⟩ := mem_objectBecameRequired.mp hc
            have hmsg := congrArg Change.message heq
            have hpP := prop_msg_inj ctx P p (" became required") hmsg
            rw [← hpP] at hp h1 h2
            exact ⟨hp, h1, h2⟩
        · obtain ⟨p, -, -, -, heq⟩ := mem_objectBecameOptional.mp hc
          have hmsg := congrArg Change.message heq
          exact absurd hmsg.symm
            (prop_msg_ne ctx p P (" became optional") (" became required")
              (by decide) (by decide))
      · obtain ⟨pr, hpr, hcc⟩ := List.mem_bind.mp hc
        rcases hget : mapGet new.properties pr.1 with - | nref
        · rw [hget] at hcc
          simp at hcc
        · rw [hget] at hcc
          have hcc2 : _ ∈ (match resolve_box_schema pr.2 oc, resolve_box_schema nref nc with
            | some old_s, some new_s =>
                diff_schema loc (ctx ++ "." ++ pr.1) old_s new_s dir oc nc (depth + 1)
            | _, _ => []) := hcc
          rcases hro : resolve_box_schema pr.2 oc with - | sa <;>
            rcases hrn : resolve_box_schema nref nc with - | sb <;>
            rw [hro, hrn] at hcc2
          · exact absurd hcc2 (List.not_mem_nil _)
          · exact absurd hcc2 (List.not_mem_nil _)
          · exact absurd hcc2 (List.not_mem_nil _)
          · have hinv := (diff_schema_inv MAX_DEPTH (depth + 1)
              (by simp only [MAX_DEPTH]; omega) loc (ctx ++ "." ++ pr.1) dir oc nc).1
              sa sb _ hcc2
            exact absurd rfl
              (fun h => prop_msg_not_recursed loc ctx pr.1 P (" became required") hinv h)
    · rintro ⟨hp, h1, h2⟩
      rw [diff_object]
      refine List.mem_append.mpr (Or.inl (List.mem_append.mpr (Or.inl
        (List.mem_append.mpr (Or.inr ?_)))))
      exact mem_objectBecameRequired.mpr ⟨P, hp, h1, h2, rfl⟩
  · constructor
    · intro hmem
      rw [diff_object] at hmem
      rcases List.mem_append.mp hmem with hc | hc
      · rcases List.mem_append.mp hc with hc | hc
        · rcases List.mem_append.mp hc with hc | hc
          · rcases List.mem_append.mp hc with hc | hc
            · obtain ⟨pr, -, -, heq⟩ := mem_objectRemoved.mp hc
              have hmsg := congrArg Change.message heq
              exact absurd hmsg.symm
                (prop_msg_ne ctx pr.1 P (" removed") (" became optional")
                  (by decide) (by decide))
            · obtain ⟨pr, -, -, heq⟩ := mem_objectAdded.mp hc
              have hmsg := congrArg Change.message heq
              exact absurd hmsg.symm
                (prop_msg_ne ctx pr.1 P (" added") (" became optional")
                  (by decide) (by decide))
          · obtain ⟨p, -, -, -, heq⟩ := mem_objectBecameRequired.mp hc
            have hmsg := congrArg Change.message heq
            exact absurd hmsg.symm
              (prop_msg_ne ctx p P (" became required") (" became optional")
                (by decide) (by decide))
        · obtain ⟨p, hp, h1, h2, heq⟩ := mem_objectBecameOptional.mp hc
          have hmsg := congrArg Change.message heq
          have hpP := prop_msg_inj ctx P p (" became optional") hmsg
          rw [← hpP] at hp h1 h2
          exact ⟨hp, h1, h2⟩
      · obtain ⟨pr, hpr, hcc⟩ := List.mem_bind.mp hc
        rcases hget : mapGet new.properties pr.1 with - | nref
        · rw [hget] at hcc
          simp at hcc
        · rw [hget] at hcc
          have hcc2 : _ ∈ (match resolve_box_schema pr.2 oc, resolve_box_schema nref nc with
            | some old_s, some new_s =>
                diff_schema loc (ctx ++ "." ++ pr.1) old_s new_s dir oc nc (depth + 1)
            | _, _ => []) := hcc
          rcases hro : resolve_box_schema pr.2 oc with - | sa <;>
            rcases hrn : resolve_box_schema nref nc with - | sb <;>
            rw [hro, hrn] at hcc2
          · exact absurd hcc2 (List.not_mem_nil _)
          · exact absurd hcc2 (List.not_mem_nil _)
          · exact absurd hcc2 (List.not_mem_nil _)
          · have hinv := (diff_schema_inv MAX_DEPTH (depth + 1)
              (by simp only [MAX_DEPTH]; omega) loc (ctx ++ "." ++ pr.1) dir oc nc).1
              sa sb _ hcc2
            exact absurd rfl
              (fun h => prop_msg_not_recursed loc ctx pr.1 P (" became optional") hinv h)
    · rintro ⟨hp, h1, h2⟩
      rw [diff_object]
      refine List.mem_append.mpr (Or.inl (List.mem_append.mpr (Or.inr ?_)))
      exact mem_objectBecameOptional.mpr ⟨P, hp, h1, h2, rfl⟩

/-! ## Helpers for the per-layer emission-order analysis -/

/-- Two strings with incompatible fixed suffixes differ, whatever their
variable middles are. -/
theorem suffix_str_ne (x y sfx1 sfx2 : String)
    (hlen : sfx2.data.length ≤ sfx1.data.length)
    (hne : sfx2.data ≠ sfx1.data.drop (sfx1.data.length - sfx2.data.length)) :
    x ++ sfx1 ≠ y ++ sfx2 := by
  intro h
  have hd := congrArg String.data h
  rw [str_data_append, str_data_append] at hd
  exact append_fixed_suffix_ne y.data x.data sfx2.data sfx1.data hlen hne hd.symm

theorem digitChar_isDigit {d : Nat} (h : d < 10) : (Nat.digitChar d).isDigit = true := by
  interval_cases d <;> decide

theorem toDigitsCore_digit (fuel : Nat) :
    ∀ (n : Nat) (acc : List Char), (∀ ch ∈ acc, ch.isDigit = true) →
      ∀ ch ∈ Nat.toDigitsCore 10 fuel n acc, ch.isDigit = true := by
  induction fuel with
  | zero => intro n acc hacc ch hch; exact hacc ch hch
  | succ f ih =>
      intro n acc hacc ch hch
      have hacc' : ∀ c ∈ (Nat.digitChar (n % 10) :: acc), c.isDigit = true := by
        intro c hc
        rcases List.mem_cons.mp hc with h | h
        · rw [h]; exact digitChar_isDigit (Nat.mod_lt n (by decide))
        · exact hacc c h
      have heq : Nat.toDigitsCore 10 (f + 1) n acc =
          if n / 10 = 0 then Nat.digitChar (n % 10) :: acc
          else Nat.toDigitsCore 10 f (n / 10) (Nat.digitChar (n % 10) :: acc) := rfl
      rw [heq] at hch
      by_cases h0 : n / 10 = 0
      · rw [if_pos h0] at hch
        exact hacc' ch hch
      · rw [if_neg h0] at hch
        exact ih (n / 10) _ hacc' ch hch

/-- The decimal rendering of a `Nat` consists of digit characters. -/
theorem repr_digit (n : Nat) : ∀ ch ∈ (Nat.repr n).data, ch.isDigit = true := by
  intro ch hch
  have hch2 : ch ∈ Nat.toDigitsCore 10 (n + 1) n [] := hch
  exact toDigitsCore_digit (n + 1) n []
    (fun c hc => absurd hc (List.not_mem_nil c)) ch hch2

/-- Status-code strings are digits (plus `XX` for ranges); a colon never
occurs in them. -/
theorem status_code_str_no_colon (code : StatusCode) :
    Char.ofNat 58 ∉ (status_code_str code).data := by
  intro hmem
  cases code with
  | Code c =>
      have hm2 : Char.ofNat 58 ∈ (Nat.repr c).data := hmem
      exact absurd (repr_digit c _ hm2) (by decide)
  | Range r =>
      have hm2 : Char.ofNat 58 ∈ (Nat.repr r).data ++ ("XX" : String).data := hmem
      rcases List.mem_append.mp hm2 with h | h
      · exact absurd (repr_digit r _ h) (by decide)
      · exact absurd h (by decide)

/-- A response-added message contains no colon, while every schema-layer
message does. -/
theorem resp_added_no_colon (code : StatusCode) :
    Char.ofNat 58 ∉ ("response " ++ q ++ status_code_str code ++ q ++ " added").data := by
  intro h
  simp only [str_data_append, List.mem_append] at h
  rcases h with (((h | h) | h) | h) | h
  · exact absurd h (by decide)
  · exact absurd h (by decide)
  · exact status_code_str_no_colon code h
  · exact absurd h (by decide)
  · exact absurd h (by decide)

/-- A message extending `label ++ " " ++ media` (a schema-layer message of
the content layer) is never a media-type-added message of the same label:
the character after the label differs. -/
theorem content_added_msg_ne (label media mt : String) (rest : List Char) (msg : String)
    (hpre : msg.data = (label ++ " " ++ media).data ++ rest) :
    msg ≠ label ++ ": media type " ++ q ++ mt ++ q ++ " added" := by
  intro h
  rw [h] at hpre
  simp only [str_data_append, List.append_assoc] at hpre
  have h2 := List.append_cancel_left hpre
  simp only [List.cons_append, List.nil_append] at h2
  injection h2 with hc h2b
  exact absurd hc (by decide)

/-- A message extending `"parameter " ++ q ++ name ++ q` (a modified-parameter
message) is never a parameter-added message, whose leading characters come
from one of the four `in`-locations. -/
theorem param_added_msg_ne (kloc n1 n2 sfx : String) (rest : List Char) (msg : String)
    (hloc : kloc = "query" ∨ kloc = "header" ∨ kloc = "path" ∨ kloc = "cookie")
    (hpre : msg.data = ("parameter " ++ q ++ n1 ++ q).data ++ rest) :
    msg ≠ kloc ++ " parameter " ++ q ++ n2 ++ q ++ sfx := by
  intro h
  rw [h] at hpre
  simp only [str_data_append, List.append_assoc] at hpre
  rcases hloc with h1 | h1 | h1 | h1 <;> rw [h1] at hpre
  · rw [show ("query" : String).data = 'q' :: ("uery" : String).data from rfl] at hpre
    simp only [List.cons_append, List.nil_append] at hpre
    injection hpre with hc hrest
    exact absurd hc (by decide)
  · rw [show ("header" : String).data = 'h' :: ("eader" : String).data from rfl] at hpre
    simp only [List.cons_append, List.nil_append] at hpre
    injection hpre with hc hrest
    exact absurd hc (by decide)
  · rw [show ("path" : String).data = 'p' :: 'a' :: 't' :: 'h' :: ([] : List Char)
        from rfl] at hpre
    simp only [List.cons_append, List.nil_append] at hpre
    injection hpre with hc1 hpre
    injection hpre with hc2 hpre
    injection hpre with hc3 hpre
    exact absurd hc3 (by decide)
  · rw [show ("cookie" : String).data = 'c' :: ("ookie" : String).data from rfl] at hpre
    simp only [List.cons_append, List.nil_append] at hpre
    injection hpre with hc hrest
    exact absurd hc (by decide)

/-- Entries of `l.zip (l.map f)` pair each element of `l` with its image. -/
theorem mem_zip_map {α β : Type} (f : α → β) :
    ∀ (l : List α) (pb : α × β), pb ∈ l.zip (l.map f) → pb.1 ∈ l ∧ pb.2 = f pb.1 := by
  intro l
  induction l with
  | nil => intro pb h; exact absurd h (List.not_mem_nil pb)
  | cons x xs ih =>
      intro pb h
      rw [List.map_cons, List.zip_cons_cons] at h
      rcases List.mem_cons.mp h with h | h
      · rw [h]; exact ⟨List.mem_cons_self _ _, rfl⟩
      · obtain ⟨h1, h2⟩ := ih pb h
        exact ⟨List.mem_cons_of_mem _ h1, h2⟩

/-- Keys of `insertKey m k v` satisfy any predicate that the keys of `m`
and `k` satisfy. -/
theorem insertKey_key_shape {κ α : Type} [DecidableEq κ] (P : κ → Prop)
    (m : List (κ × α)) (k : κ) (v : α)
    (hm : ∀ e ∈ m, P e.1) (hk : P k) : ∀ e ∈ insertKey m k v, P e.1 := by
  intro e he
  simp only [insertKey] at he
  split at he
  · obtain ⟨e0, he0, hmap⟩ := List.mem_map.mp he
    by_cases hc : e0.1 = k
    · rw [if_pos hc] at hmap
      rw [← hmap]
      exact hk
    · rw [if_neg hc] at hmap
      rw [← hmap]
      exact hm e0 he0
  · rcases List.mem_append.mp he with h | h
    · exact hm e h
    · rw [List.mem_singleton] at h
      rw [h]
      exact hk

/-- Every key of the parameter map was produced by `param_key`, so its
`location` field is one of the four `in`-values. -/
theorem buildParamMap_location (ps : List (ReferenceOr Parameter))
    (comps : Option Components) :
    ∀ ke ∈ buildParamMap ps comps,
      ke.1.location = "query" ∨ ke.1.location = "header" ∨
        ke.1.location = "path" ∨ ke.1.location = "cookie" := by
  have hgen : ∀ (rs : List Parameter) (acc : List (ParamKey × Parameter)),
      (∀ ke ∈ acc, ke.1.location = "query" ∨ ke.1.location = "header" ∨
        ke.1.location = "path" ∨ ke.1.location = "cookie") →
      ∀ ke ∈ rs.foldl (fun m p => insertKey m (param_key p) p) acc,
        ke.1.location = "query" ∨ ke.1.location = "header" ∨
          ke.1.location = "path" ∨ ke.1.location = "cookie" := by
    intro rs
    induction rs with
    | nil => intro acc hacc; exact hacc
    | cons r rs ih =>
        intro acc hacc
        have hstep := insertKey_key_shape
          (fun k : ParamKey => k.location = "query" ∨ k.location = "header" ∨
            k.location = "path" ∨ k.location = "cookie")
          acc (param_key r) r hacc (by
            cases r with
            | Query d => exact Or.inl rfl
            | Header d => exact Or.inr (Or.inl rfl)
            | Path d => exact Or.inr (Or.inr (Or.inl rfl))
            | Cookie d => exact Or.inr (Or.inr (Or.inr rfl)))
        exact ih _ hstep
  intro ke hke
  exact hgen _ [] (fun ke h => absurd h (List.not_mem_nil ke)) ke hke

/-! ## C3: emission order within a layer -/

def c3RespOld : Responses :=
  ⟨[(StatusCode.Code 200,
      .Item ⟨[("application/json", ⟨some (.Item (.mk (.Ty (.String ⟨[]⟩))))⟩)]⟩),
    (StatusCode.Code 404, .Item ⟨[]⟩)]⟩

def c3RespNew : Responses := ⟨[(StatusCode.Code 200, .Item ⟨[]⟩)]⟩

/-- Counterexample to C3 as stated: in `diff_responses` the change
arising from the modified (shared) status code 200 is emitted before
the "removed" change of status code 404, so removed changes do not all
precede modified ones. -/
theorem layer_order_counterexample :
    diff_responses (Location.Operation "/users" "GET") c3RespOld c3RespNew
        docEmptyW docEmptyW
      = [⟨Severity.Breaking, Location.Operation "/users" "GET",
          "response " ++ q ++ "200" ++ q ++ ": media type " ++ q
            ++ "application/json" ++ q ++ " removed"⟩,
         ⟨Severity.Breaking, Location.Operation "/users" "GET",
          "response " ++ q ++ "404" ++ q ++ " removed"⟩] := by
  decide

/-- C3 amended: within `diff_paths` the order is removed endpoints,
then added endpoints, then the changes of shared paths; within
`diff_object` the order is removed, added, became-required,
became-optional, then recursed property changes; but in
`diff_responses`, `diff_content` and `diff_parameters` the removed and
modified-entry changes are interleaved in old-side iteration order and
only the added changes of the layer come after all of them.  For those
three layers the output is the concatenation of one block per old-side
entry, in iteration order — the single removed change when the entry's
key is absent from the new side, the modified-entry comparison changes
when it is shared — followed by the added changes of the new-side-only
keys; and no change inside the blocks carries an added-shaped message
of the layer, so the added changes genuinely come last. -/
theorem layer_order_spec :
    (∀ old new : OpenAPI, ∃ r a s, diff_paths old new = r ++ a ++ s ∧
      (∀ c ∈ r, ∃ p, c = ⟨Severity.Breaking, Location.Path p, "endpoint removed"⟩) ∧
      (∀ c ∈ a, ∃ p, c = ⟨Severity.NonBreaking, Location.Path p, "endpoint added"⟩) ∧
      (∀ c ∈ s, ∃ p m, c.location = Location.Operation p m)) ∧
    (∀ (loc : Location) (old new : Responses) (os ns : OpenAPI),
      ∃ blocks a, diff_responses loc old new os ns = blocks.flatten ++ a ∧
      blocks.length = old.responses.length ∧
      (∀ pb ∈ old.responses.zip blocks,
        (containsKey new.responses pb.1.1 = false ∧
          pb.2 = [⟨Severity.Breaking, loc,
            "response " ++ q ++ status_code_str pb.1.1 ++ q ++ " removed"⟩]) ∨
        (containsKey new.responses pb.1.1 = true ∧
          ∀ c ∈ pb.2, c.location = loc ∧ Char.ofNat 58 ∈ c.message.data)) ∧
      (∀ c ∈ a, ∃ ce ∈ new.responses, containsKey old.responses ce.1 = false ∧
        c = ⟨Severity.NonBreaking, loc,
          "response " ++ q ++ status_code_str ce.1 ++ q ++ " added"⟩) ∧
      (∀ c ∈ blocks.flatten, ∀ code : StatusCode,
        c.message ≠ "response " ++ q ++ status_code_str code ++ q ++ " added")) ∧
    (∀ (loc : Location) (label : String) (oldc newc : List (String × MediaType))
      (dir : Direction) (os ns : OpenAPI),
      ∃ blocks a, diff_content loc label oldc newc dir os ns = blocks.flatten ++ a ∧
      blocks.length = oldc.length ∧
      (∀ pb ∈ oldc.zip blocks,
        (containsKey newc pb.1.1 = false ∧
          pb.2 = [⟨Severity.Breaking, loc,
            label ++ ": media type " ++ q ++ pb.1.1 ++ q ++ " removed"⟩]) ∨
        (containsKey newc pb.1.1 = true ∧
          ∀ c ∈ pb.2, c.location = loc ∧
            ∃ rest, c.message.data = (label ++ " " ++ pb.1.1).data ++ rest)) ∧
      (∀ c ∈ a, ∃ me ∈ newc, containsKey oldc me.1 = false ∧
        c = ⟨Severity.NonBreaking, loc,
          label ++ ": media type " ++ q ++ me.1 ++ q ++ " added"⟩) ∧
      (∀ c ∈ blocks.flatten, ∀ mt : String,
        c.message ≠ label ++ ": media type " ++ q ++ mt ++ q ++ " added")) ∧
    (∀ (loc : Location) (ops nps : List (ReferenceOr Parameter))
      (oc nc : Option Components),
      ∃ blocks a, diff_parameters loc ops nps oc nc = blocks.flatten ++ a ∧
      blocks.length = (buildParamMap ops oc).length ∧
      (∀ pb ∈ (buildParamMap ops oc).zip blocks,
        (containsKey (buildParamMap nps nc) pb.1.1 = false ∧
          pb.2 = [⟨if pb.1.2.parameter_data_ref.required then Severity.Breaking
              else Severity.NonBreaking, loc,
            pb.1.1.location ++ " parameter " ++ q ++ pb.1.1.name ++ q ++ " removed"⟩]) ∨
        (containsKey (buildParamMap nps nc) pb.1.1 = true ∧
          ∀ c ∈ pb.2, c.location = loc ∧
            ∃ rest, c.message.data
              = ("parameter " ++ q ++ pb.1.1.name ++ q).data ++ rest)) ∧
      (∀ c ∈ a, ∃ ke ∈ buildParamMap nps nc,
        containsKey (buildParamMap ops oc) ke.1 = false ∧
        c = ⟨if ke.2.parameter_data_ref.required then Severity.Breaking
            else Severity.NonBreaking, loc,
          ke.1.location ++ " parameter " ++ q ++ ke.1.name ++ q ++ " added"⟩) ∧
      (∀ c ∈ blocks.flatten, ∀ ke ∈ buildParamMap nps nc,
        c.message ≠ ke.1.location ++ " parameter " ++ q ++ ke.1.name ++ q ++ " added")) ∧
    (∀ (loc : Location) (ctx : String) (oo no : ObjectType) (dir : Direction)
      (oc nc : Option Components) (depth : Nat),
      ∃ r a br bo rec, diff_object loc ctx oo no dir oc nc depth
          = r ++ a ++ br ++ bo ++ rec ∧
      (∀ c ∈ r, ∃ p, c.message = ctx ++ ": property " ++ q ++ p ++ q ++ " removed") ∧
      (∀ c ∈ a, ∃ p, c.message = ctx ++ ": property " ++ q ++ p ++ q ++ " added") ∧
      (∀ c ∈ br, ∃ p, c.message =
        ctx ++ ": property " ++ q ++ p ++ q ++ " became required") ∧
      (∀ c ∈ bo, ∃ p, c.message =
        ctx ++ ": property " ++ q ++ p ++ q ++ " became optional") ∧
      (∀ c ∈ rec, ∃ tail, c.message.data = ctx.data ++ ('.' :: tail))) := by
  refine ⟨?_, ?_, ?_, ?_, ?_⟩
  · intro old new
    refine ⟨_, _, _, by simp only [diff_paths]; rfl, ?_, ?_, ?_⟩
    · intro c hc
      obtain ⟨pe, hpe, hf⟩ := List.mem_filterMap.mp hc
      by_cases hcond : containsKey new.paths pe.1 = true
      · rw [if_pos hcond] at hf
        cases hf
      · rw [if_neg hcond] at hf
        injection hf with hf
        exact ⟨pe.1, hf.symm⟩
    · intro c hc
      obtain ⟨pe, hpe, hf⟩ := List.mem_filterMap.mp hc
      by_cases hcond : containsKey old.paths pe.1 = true
      · rw [if_pos hcond] at hf
        cases hf
      · rw [if_neg hcond] at hf
        injection hf with hf
        exact ⟨pe.1, hf.symm⟩
    · intro c hc
      obtain ⟨pe, hpe, hcc⟩ := List.mem_bind.mp hc
      rcases hget : mapGet new.paths pe.1 with - | nref
      · rw [hget] at hcc
        simp at hcc
      · rw [hget] at hcc
        have hcc2 : c ∈ (match pe.2.as_item, nref.as_item with
          | some old_item, some new_item =>
              diff_path_item pe.1 old_item new_item old new
          | _, _ => []) := hcc
        rcases hoi : pe.2.as_item with - | oi <;>
          rcases hni : nref.as_item with - | ni <;>
          rw [hoi, hni] at hcc2
        · exact absurd hcc2 (List.not_mem_nil c)
        · exact absurd hcc2 (List.not_mem_nil c)
        · exact absurd hcc2 (List.not_mem_nil c)
        · obtain ⟨m, hloc, -⟩ := diff_path_item_loc pe.1 oi ni old new c hcc2
          exact ⟨pe.1, m, hloc⟩
  · intro loc old new os ns
    refine ⟨_, _, by simp only [diff_responses]; rfl, List.length_map _ _, ?_, ?_, ?_⟩
    · intro pb hpb
      obtain ⟨hmem, hval⟩ := mem_zip_map _ old.responses pb hpb
      rcases hget : mapGet new.responses pb.1.1 with - | nref
      · refine Or.inl ⟨?_, ?_⟩
        · exact congrArg Option.isSome hget
        · rw [hval]
          show (match mapGet new.responses pb.1.1 with
            | none =>
                [(⟨Severity.Breaking, loc,
                  "response " ++ q ++ status_code_str pb.1.1 ++ q ++ " removed"⟩ : Change)]
            | some new_ref =>
                match resolve_response pb.1.2 os, resolve_response new_ref ns with
                | some old_resp, some new_resp =>
                    let label := "response " ++ q ++ status_code_str pb.1.1 ++ q
                    diff_content loc label old_resp.content new_resp.content
                      Direction.Response os ns
                | _, _ => []) = _
          rw [hget]
      · refine Or.inr ⟨?_, ?_⟩
        · exact congrArg Option.isSome hget
        · intro c hc
          rw [hval] at hc
          have hcc : c ∈ (match mapGet new.responses pb.1.1 with
            | none =>
                [(⟨Severity.Breaking, loc,
                  "response " ++ q ++ status_code_str pb.1.1 ++ q ++ " removed"⟩ : Change)]
            | some new_ref =>
                match resolve_response pb.1.2 os, resolve_response new_ref ns with
                | some old_resp, some new_resp =>
                    let label := "response " ++ q ++ status_code_str pb.1.1 ++ q
                    diff_content loc label old_resp.content new_resp.content
                      Direction.Response os ns
                | _, _ => []) := hc
          rw [hget] at hcc
          have hcc2 : c ∈ (match resolve_response pb.1.2 os,
                resolve_response nref ns with
            | some old_resp, some new_resp =>
                diff_content loc ("response " ++ q ++ status_code_str pb.1.1 ++ q)
                  old_resp.content new_resp.content Direction.Response os ns
            | _, _ => []) := hcc
          rcases hro : resolve_response pb.1.2 os with - | oresp <;>
            rcases hrn : resolve_response nref ns with - | nresp <;>
            rw [hro, hrn] at hcc2
          · exact absurd hcc2 (List.not_mem_nil c)
          · exact absurd hcc2 (List.not_mem_nil c)
          · exact absurd hcc2 (List.not_mem_nil c)
          · exact diff_content_inv loc _ oresp.content nresp.content
              Direction.Response os ns c hcc2
    · intro c hc
      obtain ⟨ce, hce, hf⟩ := List.mem_filterMap.mp hc
      by_cases hcond : containsKey old.responses ce.1 = true
      · rw [if_pos hcond] at hf
        cases hf
      · rw [if_neg hcond] at hf
        injection hf with hf
        exact ⟨ce, hce, by simpa using hcond, hf.symm⟩
    · intro c hc code
      obtain ⟨ce, hce, hcl⟩ := List.mem_bind.mp
        (show c ∈ old.responses.flatMap _ from hc)
      rcases hget : mapGet new.responses ce.1 with - | nref
      · rw [hget] at hcl
        simp only [List.mem_singleton] at hcl
        rw [hcl]
        show "response " ++ q ++ status_code_str ce.1 ++ q ++ " removed"
            ≠ "response " ++ q ++ status_code_str code ++ q ++ " added"
        exact suffix_str_ne _ _ (" removed") (" added") (by decide) (by decide)
      · rw [hget] at hcl
        have hcc2 : c ∈ (match resolve_response ce.2 os, resolve_response nref ns with
          | some old_resp, some new_resp =>
              diff_content loc ("response " ++ q ++ status_code_str ce.1 ++ q)
                old_resp.content new_resp.content Direction.Response os ns
          | _, _ => []) := hcl
        rcases hro : resolve_response ce.2 os with - | oresp <;>
          rcases hrn : resolve_response nref ns with - | nresp <;>
          rw [hro, hrn] at hcc2
        · exact absurd hcc2 (List.not_mem_nil c)
        · exact absurd hcc2 (List.not_mem_nil c)
        · exact absurd hcc2 (List.not_mem_nil c)
        · have h := diff_content_inv loc _ oresp.content nresp.content
            Direction.Response os ns c hcc2
          exact ne_of_char_mem h.2 (resp_added_no_colon code)
  · intro loc label oldc newc dir os ns
    refine ⟨_, _, by simp only [diff_content]; rfl, List.length_map _ _, ?_, ?_, ?_⟩
    · intro pb hpb
      obtain ⟨hmem, hval⟩ := mem_zip_map _ oldc pb hpb
      rcases hget : mapGet newc pb.1.1 with - | nmt
      · refine Or.inl ⟨?_, ?_⟩
        · exact congrArg Option.isSome hget
        · rw [hval]
          show (match mapGet newc pb.1.1 with
            | none =>
                [(⟨Severity.Breaking, loc,
                  label ++ ": media type " ++ q ++ pb.1.1 ++ q ++ " removed"⟩ : Change)]
            | some new_mt =>
                let old_schema := pb.1.2.schema.bind fun r =>
                  resolve_schema r os.components
                let new_schema := new_mt.schema.bind fun r =>
                  resolve_schema r ns.components
                match old_schema, new_schema with
                | some old_s, some new_s =>
                    diff_schema loc (label ++ " " ++ pb.1.1) old_s new_s dir
                      os.components ns.components 0
                | _, _ => []) = _
          rw [hget]
      · refine Or.inr ⟨?_, ?_⟩
        · exact congrArg Option.isSome hget
        · intro c hc
          rw [hval] at hc
          have hcc : c ∈ (match mapGet newc pb.1.1 with
            | none =>
                [(⟨Severity.Breaking, loc,
                  label ++ ": media type " ++ q ++ pb.1.1 ++ q ++ " removed"⟩ : Change)]
            | some new_mt =>
                let old_schema := pb.1.2.schema.bind fun r =>
                  resolve_schema r os.components
                let new_schema := new_mt.schema.bind fun r =>
                  resolve_schema r ns.components
                match old_schema, new_schema with
                | some old_s, some new_s =>
                    diff_schema loc (label ++ " " ++ pb.1.1) old_s new_s dir
                      os.components ns.components 0
                | _, _ => []) := hc
          rw [hget] at hcc
          have hcc2 : c ∈ (match pb.1.2.schema.bind fun r =>
                resolve_schema r os.components,
              nmt.schema.bind fun r => resolve_schema r ns.components with
            | some old_s, some new_s =>
                diff_schema loc (label ++ " " ++ pb.1.1) old_s new_s dir
                  os.components ns.components 0
            | _, _ => []) := hcc
          rcases hro : pb.1.2.schema.bind fun r =>
              resolve_schema r os.components with - | sa <;>
            rcases hrn : nmt.schema.bind fun r =>
              resolve_schema r ns.components with - | sb <;>
            rw [hro, hrn] at hcc2
          · exact absurd hcc2 (List.not_mem_nil c)
          · exact absurd hcc2 (List.not_mem_nil c)
          · exact absurd hcc2 (List.not_mem_nil c)
          · have h := (diff_schema_inv MAX_DEPTH 0 (by simp) loc
              (label ++ " " ++ pb.1.1) dir os.components ns.components).1
              sa sb c hcc2
            exact ⟨h.1, h.2.1⟩
    · intro c hc
      obtain ⟨me, hme, hf⟩ := List.mem_filterMap.mp hc
      by_cases hcond : containsKey oldc me.1 = true
      · rw [if_pos hcond] at hf
        cases hf
      · rw [if_neg hcond] at hf
        injection hf with hf
        exact ⟨me, hme, by simpa using hcond, hf.symm⟩
    · intro c hc mt
      obtain ⟨me, hme, hcl⟩ := List.mem_bind.mp
        (show c ∈ oldc.flatMap _ from hc)
      rcases hget : mapGet newc me.1 with - | nmt
      · rw [hget] at hcl
        simp only [List.mem_singleton] at hcl
        rw [hcl]
        show label ++ ": media type " ++ q ++ me.1 ++ q ++ " removed"
            ≠ label ++ ": media type " ++ q ++ mt ++ q ++ " added"
        exact suffix_str_ne _ _ (" removed") (" added") (by decide) (by decide)
      · rw [hget] at hcl
        have hcc2 : c ∈ (match me.2.schema.bind fun r =>
              resolve_schema r os.components,
            nmt.schema.bind fun r => resolve_schema r ns.components with
          | some old_s, some new_s =>
              diff_schema loc (label ++ " " ++ me.1) old_s new_s dir
                os.components ns.components 0
          | _, _ => []) := hcl
        rcases hro : me.2.schema.bind fun r =>
            resolve_schema r os.components with - | sa <;>
          rcases hrn : nmt.schema.bind fun r =>
            resolve_schema r ns.components with - | sb <;>
          rw [hro, hrn] at hcc2
        · exact absurd hcc2 (List.not_mem_nil c)
        · exact absurd hcc2 (List.not_mem_nil c)
        · exact absurd hcc2 (List.not_mem_nil c)
        · obtain ⟨-, ⟨rest, hpre⟩, -⟩ := (diff_schema_inv MAX_DEPTH 0 (by simp) loc
            (label ++ " " ++ me.1) dir os.components ns.components).1 sa sb c hcc2
          exact content_added_msg_ne label me.1 mt rest c.message hpre
  · intro loc ops nps oc nc
    refine ⟨_, _, by simp only [diff_parameters]; rfl, List.length_map _ _, ?_, ?_, ?_⟩
    · intro pb hpb
      obtain ⟨hmem, hval⟩ := mem_zip_map _ (buildParamMap ops oc) pb hpb
      rcases hget : mapGet (buildParamMap nps nc) pb.1.1 with - | np
      · refine Or.inl ⟨?_, ?_⟩
        · exact congrArg Option.isSome hget
        · rw [hval]
          show (match mapGet (buildParamMap nps nc) pb.1.1 with
            | none =>
                [(⟨if pb.1.2.parameter_data_ref.required then Severity.Breaking
                    else Severity.NonBreaking, loc,
                  pb.1.1.location ++ " parameter " ++ q ++ pb.1.1.name
                    ++ q ++ " removed"⟩ : Change)]
            | some new_p =>
                (if !pb.1.2.parameter_data_ref.required
                    && new_p.parameter_data_ref.required then
                  [(⟨Severity.Breaking, loc,
                    "parameter " ++ q ++ pb.1.1.name ++ q
                      ++ " became required"⟩ : Change)]
                else [])
                ++ (if pb.1.2.parameter_data_ref.required
                    && !new_p.parameter_data_ref.required then
                  [(⟨Severity.NonBreaking, loc,
                    "parameter " ++ q ++ pb.1.1.name ++ q
                      ++ " became optional"⟩ : Change)]
                else [])
                ++ diff_parameter_type loc pb.1.1.name
                    pb.1.2.parameter_data_ref.format
                    new_p.parameter_data_ref.format) = _
          rw [hget]
      · refine Or.inr ⟨?_, ?_⟩
        · exact congrArg Option.isSome hget
        · intro c hc
          rw [hval] at hc
          have hcc : c ∈ (match mapGet (buildParamMap nps nc) pb.1.1 with
            | none =>
                [(⟨if pb.1.2.parameter_data_ref.required then Severity.Breaking
                    else Severity.NonBreaking, loc,
                  pb.1.1.location ++ " parameter " ++ q ++ pb.1.1.name
                    ++ q ++ " removed"⟩ : Change)]
            | some new_p =>
                (if !pb.1.2.parameter_data_ref.required
                    && new_p.parameter_data_ref.required then
                  [(⟨Severity.Breaking, loc,
                    "parameter " ++ q ++ pb.1.1.name ++ q
                      ++ " became required"⟩ : Change)]
                else [])
                ++ (if pb.1.2.parameter_data_ref.required
                    && !new_p.parameter_data_ref.required then
                  [(⟨Severity.NonBreaking, loc,
                    "parameter " ++ q ++ pb.1.1.name ++ q
                      ++ " became optional"⟩ : Change)]
                else [])
                ++ diff_parameter_type loc pb.1.1.name
                    pb.1.2.parameter_data_ref.format
                    new_p.parameter_data_ref.format) := hc
          rw [hget] at hcc
          rcases List.mem_append.mp hcc with hcc | hcc
          · rcases List.mem_append.mp hcc with hcc | hcc
            · split at hcc
              · simp only [List.mem_singleton] at hcc
                rw [hcc]
                exact ⟨rfl, (" became required" : String).data, rfl⟩
              · exact absurd hcc (List.not_mem_nil c)
            · split at hcc
              · simp only [List.mem_singleton] at hcc
                rw [hcc]
                exact ⟨rfl, (" became optional" : String).data, rfl⟩
              · exact absurd hcc (List.not_mem_nil c)
          · simp only [diff_parameter_type, ne_eq] at hcc
            split at hcc
            · split at hcc
              · simp only [List.mem_singleton] at hcc
                rw [hcc]
                exact ⟨rfl, _, by
                  simp only [str_data_append, List.append_assoc]; rfl⟩
              · exact absurd hcc (List.not_mem_nil c)
            · exact absurd hcc (List.not_mem_nil c)
    · intro c hc
      obtain ⟨ke, hke, hf⟩ := List.mem_filterMap.mp hc
      by_cases hcond : containsKey (buildParamMap ops oc) ke.1 = true
      · rw [if_pos hcond] at hf
        cases hf
      · rw [if_neg hcond] at hf
        injection hf with hf
        exact ⟨ke, hke, by simpa using hcond, hf.symm⟩
    · intro c hc ke hke
      have hloc4 := buildParamMap_location nps nc ke hke
      obtain ⟨ke0, hke0, hcl⟩ := List.mem_bind.mp
        (show c ∈ (buildParamMap ops oc).flatMap _ from hc)
      rcases hget : mapGet (buildParamMap nps nc) ke0.1 with - | np
      · rw [hget] at hcl
        simp only [List.mem_singleton] at hcl
        rw [hcl]
        show ke0.1.location ++ " parameter " ++ q ++ ke0.1.name ++ q ++ " removed"
            ≠ ke.1.location ++ " parameter " ++ q ++ ke.1.name ++ q ++ " added"
        exact suffix_str_ne _ _ (" removed") (" added") (by decide) (by decide)
      · rw [hget] at hcl
        rcases List.mem_append.mp hcl with hcl | hcl
        · rcases List.mem_append.mp hcl with hcl | hcl
          · split at hcl
            · simp only [List.mem_singleton] at hcl
              rw [hcl]
              exact param_added_msg_ne ke.1.location ke0.1.name ke.1.name
                (" added") (" became required" : String).data _ hloc4 rfl
            · exact absurd hcl (List.not_mem_nil c)
          · split at hcl
            · simp only [List.mem_singleton] at hcl
              rw [hcl]
              exact param_added_msg_ne ke.1.location ke0.1.name ke.1.name
                (" added") (" became optional" : String).data _ hloc4 rfl
            · exact absurd hcl (List.not_mem_nil c)
        · simp only [diff_parameter_type, ne_eq] at hcl
          split at hcl
          · split at hcl
            · simp only [List.mem_singleton] at hcl
              rw [hcl]
              exact param_added_msg_ne ke.1.location ke0.1.name ke.1.name
                (" added") _ _ hloc4
                (by simp only [str_data_append, List.append_assoc]; rfl)
            · exact absurd hcl (List.not_mem_nil c)
          · exact absurd hcl (List.not_mem_nil c)
  · intro loc ctx oo no dir oc nc depth
    refine ⟨_, _, _, _, _, by rw [diff_object], ?_, ?_, ?_, ?_, ?_⟩
    · intro c hc
      obtain ⟨pr, -, -, rfl⟩ := mem_objectRemoved.mp hc
      exact ⟨pr.1, rfl⟩
    · intro c hc
      obtain ⟨pr, -, -, rfl⟩ := mem_objectAdded.mp hc
      exact ⟨pr.1, rfl⟩
    · intro c hc
      obtain ⟨p, -, -, -, rfl⟩ := mem_objectBecameRequired.mp hc
      exact ⟨p, rfl⟩
    · intro c hc
      obtain ⟨p, -, -, -, rfl⟩ := mem_objectBecameOptional.mp hc
      exact ⟨p, rfl⟩
    · intro c hc
      obtain ⟨pr, hpr, hcc⟩ := List.mem_bind.mp hc
      rcases hget : mapGet no.properties pr.1 with - | nref
      · rw [hget] at hcc
        simp at hcc
      · rw [hget] at hcc
        have hcc2 : c ∈ (match resolve_box_schema pr.2 oc, resolve_box_schema nref nc with
          | some old_s, some new_s =>
              diff_schema loc (ctx ++ "." ++ pr.1) old_s new_s dir oc nc (depth + 1)
          | _, _ => []) := hcc
        rcases hro : resolve_box_schema pr.2 oc with - | sa <;>
          rcases hrn : resolve_box_schema nref nc with - | sb <;>
          rw [hro, hrn] at hcc2
        · exact absurd hcc2 (List.not_mem_nil c)
        · exact absurd hcc2 (List.not_mem_nil c)
        · exact absurd hcc2 (List.not_mem_nil c)
        · obtain ⟨-, ⟨rest, hpre⟩, -⟩ := (diff_schema_inv MAX_DEPTH (depth + 1)
            (by simp only [MAX_DEPTH]; omega) loc (ctx ++ "." ++ pr.1) dir oc nc).1
            sa sb c hcc2
          refine ⟨pr.1.data ++ rest, ?_⟩
          rw [hpre]
          simp [str_data_append, List.append_assoc]

/-- Witness for C3's amended statement at the counterexample inputs of
the responses layer: the output is one block per old status code in
iteration order (modified 200, then removed 404) followed by the added
changes, and no block change is added-shaped. -/
theorem layer_order_spec_witness :
    ∃ blocks a,
      diff_responses (Location.Operation "/users" "GET") c3RespOld c3RespNew
          docEmptyW docEmptyW = blocks.flatten ++ a ∧
      blocks.length = c3RespOld.responses.length ∧
      (∀ pb ∈ c3RespOld.responses.zip blocks,
        (containsKey c3RespNew.responses pb.1.1 = false ∧
          pb.2 = [⟨Severity.Breaking, Location.Operation "/users" "GET",
            "response " ++ q ++ status_code_str pb.1.1 ++ q ++ " removed"⟩]) ∨
        (containsKey c3RespNew.responses pb.1.1 = true ∧
          ∀ c ∈ pb.2, c.location = Location.Operation "/users" "GET" ∧
            Char.ofNat 58 ∈ c.message.data)) ∧
      (∀ c ∈ a, ∃ ce ∈ c3RespNew.responses,
        containsKey c3RespOld.responses ce.1 = false ∧
        c = ⟨Severity.NonBreaking, Location.Operation "/users" "GET",
          "response " ++ q ++ status_code_str ce.1 ++ q ++ " added"⟩) ∧
      (∀ c ∈ blocks.flatten, ∀ code : StatusCode,
        c.message ≠ "response " ++ q ++ status_code_str code ++ q ++ " added") :=
  layer_order_spec.2.1 (Location.Operation "/users" "GET") c3RespOld c3RespNew
    docEmptyW docEmptyW

/-- Witness for C2's amended statement: the concrete became-required
change is emitted for a property key of the old side only. -/
theorem object_required_transitions_witness :
    (⟨Severity.Breaking, Location.Path "/w",
      "c" ++ ": property " ++ q ++ "p" ++ q ++ " became required"⟩ : Change)
      ∈ diff_object (Location.Path "/w") "c" c2OldObj c2NewObj
          Direction.Request none none 0 :=
  (object_required_transitions (Location.Path "/w") "c" c2OldObj c2NewObj
    Direction.Request none none 0 "p").1.mpr ⟨by decide, by decide, by decide⟩

end ApiDiff
